import Mathlib

/-!
Shallow embedding of the `warray` labeled-array core: index terms, the
dimension resolver (`expanded_indexer`, `drop_dims_from_indexers`), the numpy
index adapter, `Variable` and `DataArray` with their `isel` pipelines, and the
construction-time coordinate validation.  Backing tensors are modeled by their
shapes; numpy basic-indexing behaviour (slice lengths, integer-axis collapse,
the scalar-versus-0d-array rule for keys containing an ellipsis) is embedded
following the CPython/numpy rules that the source delegates to.
-/

namespace Warray

/-- An index term: a plain integer, a slice (start/stop/step, each optionally
absent), or the `Ellipsis` placeholder.  Mirrors the values accepted by the
source's indexing pipeline (`BASIC_INDEXING_TYPES` plus `Ellipsis`). -/
inductive Idx where
  | int (k : Int)
  | slc (start stop step : Option Int)
  | ellipsis
deriving DecidableEq, Repr

/-- The full slice `slice(None)`, i.e. "select everything along this axis". -/
def fullSlice : Idx := .slc none none none

def Idx.isInt : Idx → Bool
  | .int _ => true
  | _ => false

def Idx.isSlc : Idx → Bool
  | .slc _ _ _ => true
  | _ => false

/-- Membership in `BASIC_INDEXING_TYPES = (int, np.integer, slice)`. -/
def Idx.isBasic (t : Idx) : Bool := t.isInt || t.isSlc

/-- Structured error values, one constructor per distinct `raise` site of the
source (the carried data mirrors what the source interpolates into the
exception message). -/
inductive Err where
  | dimsLengthMismatch (dims : List String) (ndim : Nat)
  | shapeMismatch (newShape oldShape : List Nat)
  | missingDims (invalid : List String) (dims : List String)
  | badMissingDimsOption (opt : String)
  | tooManyIndices
  | indexOutOfBounds (k : Int) (n : Nat)
  | zeroStep
  | multipleEllipsis
  | invalidIndexerType
  | notImplemented
  | duplicateDims (repeated : List String) (dims : List String)
  | dimNotFound (d : String) (dims : List String)
  | coordsLenMismatch (ncoords nshape : Nat)
  | dataDimsMismatch (nshape ndims : Nat)
  | coordDimsNotSubset (name : String) (cdims dims : List String)
  | conflictingSizes (d : String) (ownerLen coordLen : Nat) (name : String)
  | coordNotOneDim (name : String)
  | keyError (k : String)
deriving DecidableEq, Repr

instance {α : Type} [DecidableEq α] : DecidableEq (Except Err α) := fun x y =>
  match x, y with
  | .ok a, .ok b =>
      if h : a = b then isTrue (by rw [h]) else isFalse (by simp [h])
  | .ok _, .error _ => isFalse (by simp)
  | .error _, .ok _ => isFalse (by simp)
  | .error e, .error f =>
      if h : e = f then isTrue (by rw [h]) else isFalse (by simp [h])

/-- An indexer mapping (a Python `dict` keyed by dimension name), represented
as an association list in insertion order. -/
abbrev Dict := List (String × Idx)

/-- `m.get(k)` / `m[k]` on an association list: first matching key. -/
def dictGet {β : Type} (m : List (String × β)) (k : String) : Option β :=
  match m with
  | [] => none
  | (k2, v) :: rest => if k2 = k then some v else dictGet rest k

/-- Insert-or-update, mirroring `d[k] = v` on a Python dict: an existing key
keeps its position and gets the new value, a new key is appended. -/
def upsert {β : Type} (d : List (String × β)) (k : String) (v : β) : List (String × β) :=
  if d.any (fun p => p.1 = k) then d.map (fun p => if p.1 = k then (k, v) else p)
  else d ++ [(k, v)]

/-- The Python dict built by inserting the given pairs in order (later pairs
with an equal key overwrite, keeping the first-insertion position). -/
def pyDict {β : Type} (l : List (String × β)) : List (String × β) :=
  l.foldl (fun d p => upsert d p.1 p.2) []

/-- Effectful map over a list in the `Except Err` monad (explicit recursion so
that equational reasoning is direct). -/
def exceptMap {α β : Type} (f : α → Except Err β) : List α → Except Err (List β)
  | [] => .ok []
  | x :: xs => do
      let y ← f x
      let ys ← exceptMap f xs
      .ok (y :: ys)

/-- Effectful iteration (`for` loop that can raise) in the `Except Err` monad. -/
def exceptIter {α : Type} (f : α → Except Err Unit) : List α → Except Err Unit
  | [] => .ok ()
  | x :: xs => do
      let _ ← f x
      exceptIter f xs

/-! ## Dimension resolver (`_util.py`) -/

/-- The loop body of `expanded_indexer`: walk the key, replacing the first
`Ellipsis` by `(ndim + 1 - len(key))` full slices (`L` is the length of the
whole original key) and every later `Ellipsis` by a single full slice. -/
def expandKey (ndim L : Nat) : List Idx → Bool → List Idx
  | [], _ => []
  | .ellipsis :: ks, false =>
      List.replicate (ndim + 1 - L) fullSlice ++ expandKey ndim L ks true
  | .ellipsis :: ks, true => fullSlice :: expandKey ndim L ks true
  | .int k :: ks, found => .int k :: expandKey ndim L ks found
  | .slc a b c :: ks, found => .slc a b c :: expandKey ndim L ks found

/-- `expanded_indexer(key, ndim)` from `_util.py`: expand `Ellipsis`, fail with
"too many indices" if the result is longer than `ndim`, otherwise right-pad
with full slices to length `ndim`. -/
def expanded_indexer (key : List Idx) (ndim : Nat) : Except Err (List Idx) :=
  let nk := expandKey ndim key.length key false
  if ndim < nk.length then .error .tooManyIndices
  else .ok (nk ++ List.replicate (ndim - nk.length) fullSlice)

/-- `indexers.keys() - set(dims)`, as a deduplicated list in key order. -/
def invalidKeys (indexers : Dict) (dims : List String) : List String :=
  ((indexers.map Prod.fst).filter (fun k => !dims.contains k)).dedup

/-- `drop_dims_from_indexers` from `_util.py`.  The second component of the
result records whether a (non-fatal) warning was emitted by the `warn`
branch.  The `warn` branch copies the dict and pops each invalid key from the
copy, which leaves exactly the entries whose key is a known dimension, in
their original order; the `ignore` branch builds that same dict directly. -/
def drop_dims_from_indexers (indexers : Dict) (dims : List String)
    (missing_dims : String) : Except Err (Dict × Bool) :=
  if missing_dims = "raise" then
    let invalid := invalidKeys indexers dims
    if invalid.isEmpty then .ok (indexers, false)
    else .error (.missingDims invalid dims)
  else if missing_dims = "warn" then
    let invalid := invalidKeys indexers dims
    .ok (indexers.filter (fun p => dims.contains p.1), !invalid.isEmpty)
  else if missing_dims = "ignore" then
    .ok (indexers.filter (fun p => dims.contains p.1), false)
  else .error (.badMissingDimsOption missing_dims)

/-! ## Numpy basic-indexing semantics (the external tensor the source wraps)

Modeled from the numpy/CPython rules the source relies on: `slice.indices`
clamping (CPython `PySlice_AdjustIndices`), integer terms with negative
wrap-around and bounds checking, ellipsis expansion, and the documented rule
that an indexing result is an unwrapped scalar exactly when the key is a full
tuple of integers containing no slice and no ellipsis. -/

/-- The number of elements selected by `slice(start, stop, step)` from an axis
of length `n`, for `step ≠ 0` (CPython `PySlice_AdjustIndices`). -/
def sliceLenVal (n : Nat) (start stop step : Option Int) : Nat :=
  let s : Int := step.getD 1
  if 0 < s then
    let st : Int := match start with
      | none => 0
      | some x => if x < 0 then max (x + (n : Int)) 0 else min x (n : Int)
    let en : Int := match stop with
      | none => (n : Int)
      | some x => if x < 0 then max (x + (n : Int)) 0 else min x (n : Int)
    if st < en then ((en - st - 1) / s + 1).toNat else 0
  else
    let st : Int := match start with
      | none => (n : Int) - 1
      | some x => if x < 0 then max (x + (n : Int)) (-1) else min x ((n : Int) - 1)
    let en : Int := match stop with
      | none => -1
      | some x => if x < 0 then max (x + (n : Int)) (-1) else min x ((n : Int) - 1)
    if en < st then ((st - en - 1) / (-s) + 1).toNat else 0

/-- Applying a slice to an axis: a zero step is an error, anything else
selects `sliceLenVal` elements. -/
def sliceLen (n : Nat) (start stop step : Option Int) : Except Err Nat :=
  if step = some 0 then .error .zeroStep else .ok (sliceLenVal n start stop step)

/-- Whether integer index `k` is in bounds for an axis of length `n`
(negative values wrap around, numpy-style). -/
def intOk (k : Int) (n : Nat) : Bool :=
  let k2 := if k < 0 then k + (n : Int) else k
  decide (0 ≤ k2 ∧ k2 < (n : Int))

/-- Apply one basic term to one axis: an in-bounds integer drops the axis
(`none`), a slice keeps it with the sliced length (`some len`). -/
def applyBasic (t : Idx) (n : Nat) : Except Err (Option Nat) :=
  match t with
  | .int k => if intOk k n then .ok none else .error (.indexOutOfBounds k n)
  | .slc a b c => do
      let m ← sliceLen n a b c
      .ok (some m)
  | .ellipsis => .error .invalidIndexerType

/-- The result of a numpy read: `isArray` distinguishes a true `ndarray`
(possibly 0-dimensional) from an unwrapped numpy scalar. -/
structure NpValue where
  isArray : Bool
  shape : List Nat
deriving DecidableEq, Repr

/-- Replace an ellipsis in a numpy key by the full slices it stands for (one
full slice per axis not consumed by a non-ellipsis term). -/
def npBody (rank : Nat) (key : List Idx) : List Idx :=
  (key.map (fun t =>
    if t = Idx.ellipsis
    then List.replicate (rank - key.countP (fun t2 => !(t2 == Idx.ellipsis))) fullSlice
    else [t])).flatten

/-- Expand the ellipsis, then right-pad the key with full slices up to the
array's rank. -/
def npExpand (rank : Nat) (key : List Idx) : List Idx :=
  npBody rank key ++ List.replicate (rank - (npBody rank key).length) fullSlice

/-- Numpy basic `__getitem__` on an array of the given shape: at most one
ellipsis, no more non-ellipsis terms than axes, per-axis application of the
terms; the result is an unwrapped scalar exactly when the key is an
integer-only tuple of length equal to the rank with no ellipsis. -/
def npGet (shape : List Nat) (key : List Idx) : Except Err NpValue :=
  if 1 < key.countP (fun t => t == Idx.ellipsis) then .error .multipleEllipsis
  else if shape.length < key.length - key.countP (fun t => t == Idx.ellipsis) then
    .error .tooManyIndices
  else do
    let axes ← exceptMap (fun p => applyBasic p.1 p.2)
      ((npExpand shape.length key).zip shape)
    pure ⟨!(key.countP (fun t => t == Idx.ellipsis) == 0 && key.all Idx.isInt
            && key.length == shape.length),
          axes.filterMap id⟩

/-! ## Explicit indexer and numpy adapter (`_indexing.py`) -/

/-- `BasicIndexer.__init__`: every term must be an integer or a slice
(normalisation of integral-likes is the identity in this model). -/
def BasicIndexer.mk? (key : List Idx) : Except Err (List Idx) :=
  if key.all Idx.isBasic then .ok key else .error .invalidIndexerType

/-- `NumpyIndexingAdapter.__getitem__` for a `BasicIndexer`: append an
`Ellipsis` to the key tuple and delegate to the tensor's native indexing
(`_indexing_array_and_key` followed by `array[key]`). -/
def NumpyIndexingAdapter.getitem (shape : List Nat) (key : List Idx) :
    Except Err NpValue :=
  npGet shape (key ++ [Idx.ellipsis])

/-! ## Variable (`_variable.py`) -/

/-- A `Variable`: dimension names plus the backing tensor, the latter modeled
by its shape.  The structure itself is unconstrained (as is a Python
instance); `Variable.mk?` mirrors the checked constructor. -/
structure Variable where
  dims : List String
  shape : List Nat
deriving DecidableEq, Repr

def Variable.ndim (v : Variable) : Nat := v.shape.length

/-- `Variable.__init__` / `_parse_dimensions`: constructing with a dims
sequence whose length differs from the data's rank is an error. -/
def Variable.mk? (dims : List String) (dataShape : List Nat) : Except Err Variable :=
  if dims.length = dataShape.length then .ok ⟨dims, dataShape⟩
  else .error (.dimsLengthMismatch dims dataShape.length)

/-- The `dims` setter: re-runs `_parse_dimensions` against the current rank. -/
def Variable.setDims? (v : Variable) (newDims : List String) : Except Err Variable :=
  if newDims.length = v.ndim then .ok ⟨newDims, v.shape⟩
  else .error (.dimsLengthMismatch newDims v.ndim)

/-- The `data` setter: `_check_shape` requires the replacement tensor to have
exactly the current shape. -/
def Variable.setData? (v : Variable) (newShape : List Nat) : Except Err Variable :=
  if newShape = v.shape then .ok ⟨v.dims, newShape⟩
  else .error (.shapeMismatch newShape v.shape)

/-- `Variable.__getitem__` with a tuple key: `_broadcast_indexes` expands the
key to full rank, requires every term to be basic, computes the result dims by
dropping integer-indexed axes (`_broadcast_indexes_basic`), builds a
`BasicIndexer`, applies it through the numpy adapter, and rebuilds a
`Variable` from the result (`_finalize_indexing_result` / `_replace`). -/
def Variable.getitem (v : Variable) (key : List Idx) : Except Err Variable := do
  let expKey ← expanded_indexer key v.ndim
  if expKey.all Idx.isBasic then do
    let bkey ← BasicIndexer.mk? expKey
    let res ← NumpyIndexingAdapter.getitem v.shape bkey
    Variable.mk?
      ((expKey.zip v.dims).filterMap (fun p => if p.1.isInt then none else some p.2))
      res.shape
  else throw .notImplemented

/-- `Variable.isel`: filter the indexer mapping by the missing-dims policy,
take for each dimension (in order) the supplied term or a full slice, and
index positionally. -/
def Variable.isel (v : Variable) (indexers : Dict) (missing_dims : String) :
    Except Err Variable := do
  let fi ← drop_dims_from_indexers indexers v.dims missing_dims
  v.getitem (v.dims.map (fun d => (dictGet fi.1 d).getD fullSlice))

/-- The set comprehension `{d for d in dims if dims.count(d) > 1}`, as a
deduplicated list in first-occurrence order. -/
def repeatedDims (dims : List String) : List String :=
  (dims.filter (fun d => 1 < dims.count d)).dedup

/-- `_raise_if_any_duplicate_dimensions` from `_common.py`. -/
def _raise_if_any_duplicate_dimensions (dims : List String) : Except Err Unit :=
  if dims.dedup.length < dims.length then
    .error (.duplicateDims (repeatedDims dims) dims)
  else .ok ()

/-- `AbstractArray._get_axis_num` as used by `Variable`: reject duplicate
dimension names, then resolve the name to its position. -/
def Variable.get_axis_num (v : Variable) (d : String) : Except Err Nat := do
  let _ ← _raise_if_any_duplicate_dimensions v.dims
  match v.dims.findIdx? (fun x => x = d) with
  | some i => pure i
  | none => throw (.dimNotFound d v.dims)

/-- `dict(zip(self.dims, self.shape))` — the `sizes` property. -/
def Variable.sizes (v : Variable) : List (String × Nat) :=
  pyDict (v.dims.zip v.shape)

/-- The length of the axis named `d` (first occurrence), used to state
coordinate-consistency hypotheses about well-formed arrays. -/
def lenAlong (v : Variable) (d : String) : Option Nat :=
  dictGet (v.dims.zip v.shape) d

/-! ## DataArray (`_dataarray.py`) -/

/-- A coordinate value supplied to the `DataArray` constructor: raw
array-like data (modeled by its shape) or a pre-built `Variable`. -/
inductive CoordVal where
  | raw (shape : List Nat)
  | var (v : Variable)
deriving DecidableEq, Repr

/-- The `coords` argument: a positional sequence or a name-keyed mapping. -/
inductive CoordsInput where
  | seq (l : List CoordVal)
  | map (l : List (String × CoordVal))
deriving DecidableEq, Repr

/-- `as_variable(obj, name)` for the forms reachable from coordinate
construction: a `Variable` is passed through (copied), raw data must be
1-dimensional and becomes a `Variable` over the single dimension `name`. -/
def as_variable (obj : CoordVal) (name : String) : Except Err Variable :=
  match obj with
  | .var v => .ok v
  | .raw shape =>
      if shape.length ≠ 1 then .error (.coordNotOneDim name)
      else Variable.mk? [name] shape

/-- One iteration of the `_check_coords_dims` loop: the coordinate's dims must
be a subset of the owner's dims, and each of its sizes must agree with the
owner's size for that dimension (`sizes[d]` raises `KeyError` if absent). -/
def checkOneCoord (sizes : List (String × Nat)) (dims : List String)
    (k : String) (v : Variable) : Except Err Unit := do
  if v.dims.any (fun d => !dims.contains d) then
    throw (.coordDimsNotSubset k v.dims dims)
  else
    exceptIter (fun p =>
      match dictGet sizes p.1 with
      | some n => if p.2 ≠ n then throw (.conflictingSizes p.1 n p.2 k) else pure ()
      | none => throw (.keyError p.1)) v.sizes

/-- `_check_coords_dims(shape, coords, dims)` from `_dataarray.py`. -/
def _check_coords_dims (shape : List Nat) (coords : List (String × Variable))
    (dims : List String) : Except Err Unit :=
  exceptIter (fun p => checkOneCoord (pyDict (dims.zip shape)) dims p.1 p.2) coords

/-- The synthetic dimension names `dim_0, dim_1, ...`. -/
def defaultDims (rank : Nat) : List String :=
  (List.range rank).map (fun n => "dim_" ++ toString n)

/-- The positional-coords branch of `_infer_coords_and_dims`: each coordinate
becomes a `Variable` and its dims are reassigned to the paired dimension. -/
def buildSeqCoords (ds : List String) (l : List CoordVal) :
    Except Err (List (String × Variable)) := do
  let built ← exceptMap (fun p => do
      let v ← as_variable p.2 p.1
      let v2 ← v.setDims? [p.1]
      .ok (p.1, v2)) (ds.zip l)
  .ok (pyDict built)

/-- The mapping-coords branch of `_infer_coords_and_dims`: entry-by-entry
conversion via `as_variable` (the input, being a Python dict, has dict
key semantics, hence the `pyDict`). -/
def buildMapCoords (m : List (String × CoordVal)) :
    Except Err (List (String × Variable)) := do
  let built ← exceptMap (fun p => do
      let v ← as_variable p.2 p.1
      .ok (p.1, v)) (pyDict m)
  .ok (pyDict built)

/-- The opening check of `_infer_coords_and_dims`: a non-mapping coords
sequence must have exactly one item per data dimension. -/
def checkSeqLen (shape : List Nat) : Option CoordsInput → Except Err Unit
  | some (.seq l) =>
      if l.length ≠ shape.length then .error (.coordsLenMismatch l.length shape.length)
      else .ok ()
  | _ => .ok ()

/-- The dims-resolution step of `_infer_coords_and_dims`: omitted dims default
to synthetic positional names, replaced by the keys of a name-keyed coords
mapping of matching size; explicit dims must match the rank. -/
def resolveDims (shape : List Nat) (coords : Option CoordsInput) :
    Option (List String) → Except Err (List String)
  | none =>
      match coords with
      | some (.map m) =>
          .ok (if (pyDict m).length = shape.length
               then (pyDict m).map Prod.fst else defaultDims shape.length)
      | _ => .ok (defaultDims shape.length)
  | some ds =>
      if ds.length ≠ shape.length then
        .error (.dataDimsMismatch shape.length ds.length)
      else .ok ds

/-- The coords-conversion step of `_infer_coords_and_dims`. -/
def buildCoords (ds : List String) :
    Option CoordsInput → Except Err (List (String × Variable))
  | none => .ok []
  | some (.map m) => buildMapCoords m
  | some (.seq l) => buildSeqCoords ds l

/-- `_infer_coords_and_dims(shape, coords, dims)` from `_dataarray.py`. -/
def _infer_coords_and_dims (shape : List Nat) (coords : Option CoordsInput)
    (dims : Option (List String)) :
    Except Err (List (String × Variable) × List String) := do
  let _ ← checkSeqLen shape coords
  let ds ← resolveDims shape coords dims
  let tmp ← buildCoords ds coords
  let _ ← _check_coords_dims shape tmp ds
  pure (tmp, ds)

/-- A `DataArray`: the owned `Variable`, the coordinate mapping, the `_dims`
tuple (stored separately from the variable, as in the source), and a name.
The field `var` models the source's `_variable`. -/
structure DataArray where
  var : Variable
  coords : List (String × Variable)
  dims : List String
  name : Option String
deriving DecidableEq, Repr

/-- The `shape` property, which delegates to the owned variable. -/
def DataArray.shape (da : DataArray) : List Nat := da.var.shape

/-- `DataArray.__init__`: infer/validate coordinates and dims, then build the
owned `Variable` (whose constructor re-checks the rank invariant). -/
def DataArray.mk? (dataShape : List Nat) (coords : Option CoordsInput)
    (dims : Option (List String)) (name : Option String) : Except Err DataArray := do
  let r ← _infer_coords_and_dims dataShape coords dims
  let v ← Variable.mk? r.2 dataShape
  pure ⟨v, r.1, r.2, name⟩

/-- `is_fancy_indexer` from `_util.py`, restricted to the term forms of this
model: integers and slices are not fancy; anything else is. -/
def is_fancy_indexer : Idx → Bool
  | .int _ => false
  | .slc _ _ _ => false
  | .ellipsis => true

/-- One iteration of the coordinate re-slicing loop of `DataArray.isel`:
restrict the request to the terms naming one of the coordinate's own dims,
re-slice when any remain, and with `drop` set omit a coordinate that
collapsed to 0 dimensions (the result is the loop's contribution to the new
coordinate mapping: one entry or none). -/
def segFor (indexers : Dict) (drop : Bool) (p : String × Variable) :
    Except Err (List (String × Variable)) :=
  if (indexers.filter (fun q => p.2.dims.contains q.1)).isEmpty then .ok [p]
  else do
    let cv2 ← p.2.isel (indexers.filter (fun q => p.2.dims.contains q.1)) "raise"
    if drop && cv2.ndim == 0 then .ok ([] : List (String × Variable))
    else .ok [(p.1, cv2)]

/-- The coordinate re-slicing loop of `DataArray.isel`. -/
def iselCoords (indexers : Dict) (drop : Bool) :
    List (String × Variable) → Except Err (List (String × Variable))
  | [] => .ok []
  | p :: rest => do
      let headPart ← segFor indexers drop p
      let tail ← iselCoords indexers drop rest
      .ok (headPart ++ tail)

/-- `DataArray.isel`: reject fancy indexers, delegate to `Variable.isel`,
drop integer-indexed names from the stored `_dims`, re-slice coordinates, and
rebuild through `_replace`, i.e. through the full constructor. -/
def DataArray.isel (da : DataArray) (indexers : Dict) (drop : Bool)
    (missing_dims : String) : Except Err DataArray := do
  if indexers.any (fun p => is_fancy_indexer p.2) then throw .notImplemented
  else
    let v ← da.var.isel indexers missing_dims
    let cs ← iselCoords indexers drop da.coords
    DataArray.mk? v.shape (some (.map (cs.map (fun p => (p.1, CoordVal.var p.2)))))
      (some (da.dims.filter (fun d =>
        match dictGet indexers d with
        | some (.int _) => false
        | _ => true))) da.name

/-! ## Heap-threaded variants (aliasing model for the frame claim)

Python indexer mappings are mutable dict objects passed by reference.  To
state that `isel` never mutates the caller's mapping, the dict store is made
explicit: a heap of dicts and references into it.  Only the operations the
source actually performs on dicts appear: reading, copying (`dict(...)`,
which allocates), popping from the copy, and building fresh dicts. -/

abbrev Heap := List Dict

/-- Heap-threaded `drop_dims_from_indexers`: `r` is the caller's dict.  The
`raise` branch returns the same reference; `warn` allocates a copy and pops
the invalid keys from the copy; `ignore` allocates a fresh filtered dict. -/
def drop_dims_heap (heap : Heap) (r : Nat) (dims : List String)
    (missing_dims : String) : Heap × Except Err (Nat × Bool) :=
  let indexers := heap.getD r []
  if missing_dims = "raise" then
    let invalid := invalidKeys indexers dims
    if invalid.isEmpty then (heap, .ok (r, false))
    else (heap, .error (.missingDims invalid dims))
  else if missing_dims = "warn" then
    let invalid := invalidKeys indexers dims
    let r2 := heap.length
    let h2 := (heap ++ [indexers]).set r2
      (indexers.filter (fun p => dims.contains p.1))
    (h2, .ok (r2, !invalid.isEmpty))
  else if missing_dims = "ignore" then
    (heap ++ [indexers.filter (fun p => dims.contains p.1)],
     .ok (heap.length, false))
  else (heap, .error (.badMissingDimsOption missing_dims))

/-- Heap-threaded `Variable.isel`: after the policy filter, the rest of the
body only reads the (possibly fresh) dict. -/
def Variable.iselH (heap : Heap) (r : Nat) (v : Variable) (missing_dims : String) :
    Heap × Except Err Variable :=
  match drop_dims_heap heap r v.dims missing_dims with
  | (h2, .error e) => (h2, .error e)
  | (h2, .ok (r2, _)) =>
      let fi := h2.getD r2 []
      (h2, v.getitem (v.dims.map (fun d => (dictGet fi d).getD fullSlice)))

/-- Heap-threaded `DataArray.isel`: the caller's dict is read (fancy check,
`new_dims`, coordinate restriction — all through the original reference) but
never written; the coordinate restrictions are fresh dicts. -/
def DataArray.iselH (heap : Heap) (r : Nat) (da : DataArray) (drop : Bool)
    (missing_dims : String) : Heap × Except Err DataArray :=
  if (heap.getD r []).any (fun p => is_fancy_indexer p.2) then
    (heap, .error .notImplemented)
  else
    match Variable.iselH heap r da.var missing_dims with
    | (h2, .error e) => (h2, .error e)
    | (h2, .ok v) =>
        (h2, do
          let cs ← iselCoords (h2.getD r []) drop da.coords
          DataArray.mk? v.shape
            (some (.map (cs.map (fun p => (p.1, CoordVal.var p.2)))))
            (some (da.dims.filter (fun d =>
              match dictGet (h2.getD r []) d with
              | some (.int _) => false
              | _ => true))) da.name)

/-! ## Helper lemmas -/

@[simp] theorem ok_bind {α β : Type} (a : α) (f : α → Except Err β) :
    (Except.ok a >>= f) = f a := rfl

@[simp] theorem error_bind {α β : Type} (e : Err) (f : α → Except Err β) :
    ((Except.error e : Except Err α) >>= f) = .error e := rfl

@[simp] theorem pure_eq_ok {α : Type} (a : α) : (pure a : Except Err α) = .ok a := rfl

@[simp] theorem throw_eq_error {α : Type} (e : Err) :
    (throw e : Except Err α) = .error e := rfl

theorem bind_eq_ok {α β : Type} {x : Except Err α} {f : α → Except Err β} {b : β}
    (h : (x >>= f) = .ok b) : ∃ a, x = .ok a ∧ f a = .ok b := by
  cases x with
  | error e => simp at h
  | ok a => exact ⟨a, rfl, h⟩

theorem contains_eq_true_of_mem {a : String} {l : List String} (h : a ∈ l) :
    l.contains a = true := List.elem_iff.2 h

theorem contains_eq_false_of_not_mem {a : String} {l : List String} (h : a ∉ l) :
    l.contains a = false := by
  cases hc : l.contains a with
  | false => rfl
  | true => exact absurd (List.elem_iff.1 hc) h

theorem expandKey_no_ell {ndim L : Nat} {key : List Idx} {b : Bool}
    (h : ∀ t ∈ key, t ≠ Idx.ellipsis) : expandKey ndim L key b = key := by
  induction key generalizing b with
  | nil => cases b <;> rfl
  | cons t ks ih =>
    have hks : ∀ t ∈ ks, t ≠ Idx.ellipsis := fun x hx => h x (List.mem_cons_of_mem _ hx)
    cases t with
    | int k => simpa [expandKey] using ih hks
    | slc a b c => simpa [expandKey] using ih hks
    | ellipsis => exact absurd rfl (h _ (List.mem_cons_self _ _))

theorem expanded_indexer_no_ell {key : List Idx} {n : Nat}
    (h : ∀ t ∈ key, t ≠ Idx.ellipsis) (hlen : key.length ≤ n) :
    expanded_indexer key n
      = .ok (key ++ List.replicate (n - key.length) fullSlice) := by
  unfold expanded_indexer
  rw [expandKey_no_ell h]
  simp [Nat.not_lt.2 hlen]

theorem expanded_indexer_exact {key : List Idx} {n : Nat}
    (h : ∀ t ∈ key, t ≠ Idx.ellipsis) (hlen : key.length = n) :
    expanded_indexer key n = .ok key := by
  rw [expanded_indexer_no_ell h (Nat.le_of_eq hlen), hlen]
  simp

theorem expanded_indexer_ok_length {key r : List Idx} {n : Nat}
    (h : expanded_indexer key n = .ok r) : r.length = n := by
  unfold expanded_indexer at h
  by_cases hc : n < (expandKey n key.length key false).length
  · simp [hc] at h
  · simp only [hc, if_false] at h
    have := h
    simp only [Except.ok.injEq] at this
    subst this
    simp only [List.length_append, List.length_replicate]
    omega

theorem dictGet_nil {β : Type} (k : String) : dictGet ([] : List (String × β)) k = none := rfl

theorem dictGet_singleton {β : Type} (k q : String) (v : β) :
    dictGet [(k, v)] q = if k = q then some v else none := rfl

theorem dictGet_filter_keys {β : Type} (idx : List (String × β)) (f : String → Bool)
    (d : String) (hd : f d = true) :
    dictGet (idx.filter (fun p => f p.1)) d = dictGet idx d := by
  induction idx with
  | nil => rfl
  | cons p rest ih =>
    by_cases hpd : p.1 = d
    · subst hpd
      simp [List.filter_cons, hd, dictGet]
    · cases hf : f p.1 with
      | true => simp [List.filter_cons, hf, dictGet, hpd, ih]
      | false => simp [List.filter_cons, hf, dictGet, hpd, ih]

theorem invalidKeys_nil_of_mem {idx : Dict} {dims : List String}
    (h : ∀ p ∈ idx, p.1 ∈ dims) : invalidKeys idx dims = [] := by
  unfold invalidKeys
  have : (idx.map Prod.fst).filter (fun k => !dims.contains k) = [] := by
    apply List.filter_eq_nil_iff.2
    intro a ha
    rcases List.mem_map.1 ha with ⟨p, hp, rfl⟩
    simp only [contains_eq_true_of_mem (h p hp), Bool.not_true]
    exact fun hc => absurd hc (by simp)
  rw [this]
  rfl

theorem filter_keys_nil_of_not_mem {idx : Dict} {dims : List String}
    (h : ∀ p ∈ idx, p.1 ∉ dims) :
    idx.filter (fun p => dims.contains p.1) = [] := by
  apply List.filter_eq_nil_iff.2
  intro p hp
  simp only [contains_eq_false_of_not_mem (h p hp)]
  exact fun hc => absurd hc (by simp)

theorem sliceLenVal_full (n : Nat) : sliceLenVal n none none none = n := by
  unfold sliceLenVal
  norm_num [Option.getD]
  all_goals omega

theorem applyBasic_fullSlice (n : Nat) : applyBasic fullSlice n = .ok (some n) := by
  simp [applyBasic, fullSlice, sliceLen, sliceLenVal_full]

theorem applyBasic_int_of_ok {k : Int} {n : Nat} (h : intOk k n = true) :
    applyBasic (.int k) n = .ok none := by
  simp [applyBasic, h]

theorem applyBasic_slc_of_step {a b c : Option Int} {n : Nat} (h : c ≠ some 0) :
    applyBasic (.slc a b c) n = .ok (some (sliceLenVal n a b c)) := by
  simp [applyBasic, sliceLen, h]

theorem exceptMap_nil {α β : Type} (f : α → Except Err β) : exceptMap f [] = .ok [] := rfl

theorem exceptMap_cons {α β : Type} (f : α → Except Err β) (x : α) (xs : List α) :
    exceptMap f (x :: xs) = (f x >>= fun y => exceptMap f xs >>= fun ys => .ok (y :: ys)) := rfl

theorem exceptMap_append {α β : Type} (f : α → Except Err β) (l1 l2 : List α) :
    exceptMap f (l1 ++ l2)
      = (exceptMap f l1 >>= fun r1 => exceptMap f l2 >>= fun r2 => .ok (r1 ++ r2)) := by
  induction l1 with
  | nil =>
    simp [exceptMap]
    cases exceptMap f l2 <;> rfl
  | cons x xs ih =>
    simp only [List.cons_append, exceptMap_cons, ih]
    cases f x with
    | error e => rfl
    | ok y =>
      simp only [ok_bind]
      cases exceptMap f xs with
      | error e => rfl
      | ok r1 =>
        simp only [ok_bind]
        cases exceptMap f l2 <;> rfl

theorem exceptMap_ok_of_all {α β : Type} {f : α → Except Err β} {g : α → β}
    {l : List α} (h : ∀ x ∈ l, f x = .ok (g x)) :
    exceptMap f l = .ok (l.map g) := by
  induction l with
  | nil => rfl
  | cons x xs ih =>
    rw [exceptMap_cons, h x (List.mem_cons_self _ _),
      ih (fun y hy => h y (List.mem_cons_of_mem _ hy))]
    rfl

theorem isBasic_ne_ell {t : Idx} (h : t.isBasic = true) : t ≠ Idx.ellipsis := by
  cases t <;> simp_all [Idx.isBasic, Idx.isInt, Idx.isSlc]

theorem countP_ell_zero {key : List Idx} (h : ∀ t ∈ key, t ≠ Idx.ellipsis) :
    key.countP (fun t => t == Idx.ellipsis) = 0 := by
  apply List.countP_eq_zero.2
  intro t ht
  simpa using h t ht

theorem countP_ne_ell_all {key : List Idx} (h : ∀ t ∈ key, t ≠ Idx.ellipsis) :
    key.countP (fun t => !(t == Idx.ellipsis)) = key.length := by
  apply List.countP_eq_length.2
  intro t ht
  simpa using h t ht

theorem flatten_singletons {α : Type} (l : List α) :
    (l.map (fun t => [t])).flatten = l := by
  induction l with
  | nil => rfl
  | cons x xs ih => simp [ih]

theorem npBody_basic {rank : Nat} {key : List Idx}
    (hne : ∀ t ∈ key, t ≠ Idx.ellipsis) (hlen : key.length = rank) :
    npBody rank (key ++ [Idx.ellipsis]) = key := by
  unfold npBody
  have hnT : (key ++ [Idx.ellipsis]).countP (fun t2 => !(t2 == Idx.ellipsis))
      = key.length := by
    rw [List.countP_append, countP_ne_ell_all hne]
    simp
  rw [hnT, List.map_append, List.flatten_append]
  have h1 : key.map (fun t =>
      if t = Idx.ellipsis then List.replicate (rank - key.length) fullSlice
      else [t]) = key.map (fun t => [t]) := by
    apply List.map_congr_left
    intro t ht
    rw [if_neg (hne t ht)]
  rw [h1, flatten_singletons]
  simp [hlen]

theorem npExpand_basic {rank : Nat} {key : List Idx}
    (hne : ∀ t ∈ key, t ≠ Idx.ellipsis) (hlen : key.length = rank) :
    npExpand rank (key ++ [Idx.ellipsis]) = key := by
  unfold npExpand
  rw [npBody_basic hne hlen]
  simp [hlen]

theorem adapter_basic {shape : List Nat} {key : List Idx} {axes : List (Option Nat)}
    (hne : ∀ t ∈ key, t ≠ Idx.ellipsis) (hlen : key.length = shape.length)
    (hax : exceptMap (fun p => applyBasic p.1 p.2) (key.zip shape) = .ok axes) :
    NumpyIndexingAdapter.getitem shape key = .ok ⟨true, axes.filterMap id⟩ := by
  unfold NumpyIndexingAdapter.getitem npGet
  have hc : (key ++ [Idx.ellipsis]).countP (fun t => t == Idx.ellipsis) = 1 := by
    rw [List.countP_append, countP_ell_zero hne]
    simp
  rw [hc]
  have h1 : ¬ (1 < 1) := by omega
  have h2 : ¬ (shape.length < (key ++ [Idx.ellipsis]).length - 1) := by
    simp [List.length_append, hlen]
  rw [if_neg h1, if_neg h2, npExpand_basic hne hlen, hax]
  simp

theorem ndim_eq (v : Variable) : v.ndim = v.shape.length := rfl

theorem getitem_basic {v : Variable} {key : List Idx} {axes : List (Option Nat)}
    (hb : ∀ t ∈ key, t.isBasic = true)
    (hk : key.length = v.shape.length)
    (hax : exceptMap (fun p => applyBasic p.1 p.2) (key.zip v.shape) = .ok axes)
    (hlen2 : ((key.zip v.dims).filterMap
        (fun p => if p.1.isInt then none else some p.2)).length
      = (axes.filterMap id).length) :
    v.getitem key
      = .ok ⟨(key.zip v.dims).filterMap (fun p => if p.1.isInt then none else some p.2),
             axes.filterMap id⟩ := by
  have hne : ∀ t ∈ key, t ≠ Idx.ellipsis := fun t ht => isBasic_ne_ell (hb t ht)
  unfold Variable.getitem
  rw [ndim_eq, expanded_indexer_exact hne hk]
  have hall : key.all Idx.isBasic = true := List.all_eq_true.2 hb
  simp only [ok_bind, hall, if_true]
  unfold BasicIndexer.mk?
  rw [if_pos hall]
  simp only [ok_bind]
  rw [adapter_basic hne hk hax]
  simp only [ok_bind]
  unfold Variable.mk?
  rw [if_pos hlen2]

theorem isel_key_raise {v : Variable} {idx : Dict}
    (hkeys : ∀ p ∈ idx, p.1 ∈ v.dims) :
    v.isel idx "raise"
      = v.getitem (v.dims.map (fun d => (dictGet idx d).getD fullSlice)) := by
  unfold Variable.isel drop_dims_from_indexers
  rw [invalidKeys_nil_of_mem hkeys]
  simp

theorem isel_key_filter {v : Variable} {idx : Dict} {pol : String}
    (hpol : pol = "warn" ∨ pol = "ignore") :
    v.isel idx pol
      = v.getitem (v.dims.map (fun d => (dictGet idx d).getD fullSlice)) := by
  have hkey : v.dims.map (fun d =>
        (dictGet (idx.filter (fun p => v.dims.contains p.1)) d).getD fullSlice)
      = v.dims.map (fun d => (dictGet idx d).getD fullSlice) := by
    apply List.map_congr_left
    intro d hd
    rw [dictGet_filter_keys _ _ _ (contains_eq_true_of_mem hd)]
  rcases hpol with h | h <;> subst h
  · unfold Variable.isel drop_dims_from_indexers
    rw [if_neg (by decide), if_pos rfl]
    simp only [ok_bind]
    rw [hkey]
  · unfold Variable.isel drop_dims_from_indexers
    rw [if_neg (by decide), if_neg (by decide), if_pos rfl]
    simp only [ok_bind]
    rw [hkey]

theorem zipRepl_filterMap {α : Type} (l : List α) :
    ((List.replicate l.length fullSlice).zip l).filterMap
      (fun p => if p.1.isInt then none else some p.2) = l := by
  induction l with
  | nil => rfl
  | cons x xs ih =>
    simp only [List.length_cons, List.replicate_succ, List.zip_cons_cons,
      List.filterMap_cons]
    exact congrArg (List.cons x) ih

theorem zipRepl_exceptMap (l : List Nat) :
    exceptMap (fun p => applyBasic p.1 p.2) ((List.replicate l.length fullSlice).zip l)
      = .ok (l.map some) := by
  induction l with
  | nil => rfl
  | cons x xs ih =>
    simp only [List.length_cons, List.replicate_succ, List.zip_cons_cons,
      exceptMap_cons, applyBasic_fullSlice, ih, ok_bind, List.map_cons]

theorem filterMap_id_map_some {α : Type} (l : List α) :
    (l.map some).filterMap id = l := by
  induction l with
  | nil => rfl
  | cons x xs ih => simp [ih]

theorem iselKey_single {pre post : List String} {d : String} (t : Idx)
    (hd1 : d ∉ pre) (hd2 : d ∉ post) :
    (pre ++ d :: post).map (fun x => (dictGet [(d, t)] x).getD fullSlice)
      = List.replicate pre.length fullSlice
        ++ t :: List.replicate post.length fullSlice := by
  rw [List.map_append, List.map_cons]
  have hpre : pre.map (fun x => (dictGet [(d, t)] x).getD fullSlice)
      = List.replicate pre.length fullSlice := by
    rw [List.map_congr_left (g := fun _ => fullSlice), List.map_const']
    intro x hx
    have : d ≠ x := fun h => hd1 (h ▸ hx)
    simp [dictGet_singleton, this]
  have hpost : post.map (fun x => (dictGet [(d, t)] x).getD fullSlice)
      = List.replicate post.length fullSlice := by
    rw [List.map_congr_left (g := fun _ => fullSlice), List.map_const']
    intro x hx
    have : d ≠ x := fun h => hd2 (h ▸ hx)
    simp [dictGet_singleton, this]
  rw [hpre, hpost]
  simp [dictGet_singleton]

@[simp] theorem Variable_dims_mk (d : List String) (s : List Nat) :
    (Variable.mk d s).dims = d := rfl

@[simp] theorem Variable_shape_mk (d : List String) (s : List Nat) :
    (Variable.mk d s).shape = s := rfl

theorem zipRepl_filterMap_of_len {α : Type} {m : Nat} (l : List α) (hm : m = l.length) :
    ((List.replicate m fullSlice).zip l).filterMap
      (fun p => if p.1.isInt then none else some p.2) = l := by
  subst hm
  exact zipRepl_filterMap l

theorem zipRepl_exceptMap_of_len {m : Nat} (l : List Nat) (hm : m = l.length) :
    exceptMap (fun p => applyBasic p.1 p.2) ((List.replicate m fullSlice).zip l)
      = .ok (l.map some) := by
  subst hm
  exact zipRepl_exceptMap l

theorem dictGet_none_of_no_key {β : Type} {m : List (String × β)} {d : String}
    (h : ∀ p ∈ m, p.1 ≠ d) : dictGet m d = none := by
  induction m with
  | nil => rfl
  | cons p rest ih =>
    show (if p.1 = d then some p.2 else dictGet rest d) = none
    rw [if_neg (h p (List.mem_cons_self _ _))]
    exact ih (fun q hq => h q (List.mem_cons_of_mem _ hq))

theorem isel_single_of_term {pre post : List String} {spre spost : List Nat}
    {d : String} {n : Nat} (t : Idx) {a0 : Option Nat}
    (h1 : pre.length = spre.length) (h2 : post.length = spost.length)
    (hd1 : d ∉ pre) (hd2 : d ∉ post)
    (hbt : t.isBasic = true) (ha0 : applyBasic t n = .ok a0) :
    Variable.isel ⟨pre ++ d :: post, spre ++ n :: spost⟩ [(d, t)] "raise"
      = .ok ⟨pre ++ (if t.isInt then [] else [d]) ++ post,
             spre ++ a0.toList ++ spost⟩ := by
  have hkeys : ∀ p ∈ [(d, t)], p.1 ∈ (Variable.mk (pre ++ d :: post) (spre ++ n :: spost)).dims := by
    intro p hp
    rw [List.mem_singleton] at hp
    subst hp
    exact List.mem_append_right _ (List.mem_cons_self _ _)
  rw [isel_key_raise hkeys]
  show Variable.getitem _
      ((pre ++ d :: post).map (fun x => (dictGet [(d, t)] x).getD fullSlice)) = _
  rw [iselKey_single t hd1 hd2]
  have hb : ∀ u ∈ List.replicate pre.length fullSlice
      ++ t :: List.replicate post.length fullSlice, u.isBasic = true := by
    intro u hu
    rcases List.mem_append.1 hu with h | h
    · rw [List.eq_of_mem_replicate h]; rfl
    · rcases List.mem_cons.1 h with h | h
      · rw [h]; exact hbt
      · rw [List.eq_of_mem_replicate h]; rfl
  have hklen : (List.replicate pre.length fullSlice
      ++ t :: List.replicate post.length fullSlice).length
      = (Variable.mk (pre ++ d :: post) (spre ++ n :: spost)).shape.length := by
    simp only [Variable_shape_mk, List.length_append, List.length_cons,
      List.length_replicate]
    omega
  have hax : exceptMap (fun p => applyBasic p.1 p.2)
      ((List.replicate pre.length fullSlice
        ++ t :: List.replicate post.length fullSlice).zip (spre ++ n :: spost))
      = .ok (spre.map some ++ a0 :: spost.map some) := by
    rw [List.zip_append (by simp [h1]), List.zip_cons_cons, exceptMap_append,
      exceptMap_cons, zipRepl_exceptMap_of_len spre h1,
      zipRepl_exceptMap_of_len spost h2, ha0]
    rfl
  have hdims2 : ((List.replicate pre.length fullSlice
      ++ t :: List.replicate post.length fullSlice).zip (pre ++ d :: post)).filterMap
        (fun p => if p.1.isInt then none else some p.2)
      = pre ++ (if t.isInt then [] else [d]) ++ post := by
    rw [List.zip_append (by simp), List.zip_cons_cons, List.filterMap_append,
      List.filterMap_cons, zipRepl_filterMap_of_len pre rfl,
      zipRepl_filterMap_of_len post rfl]
    cases ht : t.isInt <;> simp [ht]
  have hsh : (spre.map some ++ a0 :: spost.map some).filterMap id
      = spre ++ a0.toList ++ spost := by
    rw [List.filterMap_append, List.filterMap_cons, filterMap_id_map_some,
      filterMap_id_map_some]
    cases a0 <;> simp
  have hlen2 : (((List.replicate pre.length fullSlice
      ++ t :: List.replicate post.length fullSlice).zip
        ((Variable.mk (pre ++ d :: post) (spre ++ n :: spost)).dims)).filterMap
        (fun p => if p.1.isInt then none else some p.2)).length
      = ((spre.map some ++ a0 :: spost.map some).filterMap id).length := by
    simp only [Variable_dims_mk]
    rw [hdims2, hsh]
    have hia : (t.isInt = true → a0 = none) ∧ (t.isInt = false → ∃ m, a0 = some m) := by
      cases t with
      | int k =>
        refine ⟨fun _ => ?_, by simp [Idx.isInt]⟩
        by_cases hik : intOk k n = true
        · rw [applyBasic_int_of_ok hik] at ha0
          exact (Except.ok.injEq _ _ ▸ ha0).symm
        · simp [applyBasic, hik] at ha0
      | slc x y z =>
        refine ⟨by simp [Idx.isInt], fun _ => ?_⟩
        by_cases hz : z = some 0
        · subst hz; simp [applyBasic, sliceLen] at ha0
        · rw [applyBasic_slc_of_step hz] at ha0
          exact ⟨_, (Except.ok.injEq _ _ ▸ ha0).symm⟩
      | ellipsis => simp [Idx.isBasic, Idx.isInt, Idx.isSlc] at hbt
    cases ht : t.isInt with
    | true =>
      rw [hia.1 ht]
      simp [ht, h1, h2]
    | false =>
      rcases hia.2 ht with ⟨m, hm⟩
      rw [hm]
      simp [ht, h1, h2]
  have hres := getitem_basic (v := ⟨pre ++ d :: post, spre ++ n :: spost⟩) hb hklen hax hlen2
  rw [hres]
  simp only [Variable_dims_mk] at *
  rw [hdims2, hsh]

theorem isel_single_int {pre post : List String} {spre spost : List Nat}
    {d : String} {n : Nat} {k : Int}
    (h1 : pre.length = spre.length) (h2 : post.length = spost.length)
    (hd1 : d ∉ pre) (hd2 : d ∉ post) (hk : intOk k n = true) :
    Variable.isel ⟨pre ++ d :: post, spre ++ n :: spost⟩ [(d, Idx.int k)] "raise"
      = .ok ⟨pre ++ post, spre ++ spost⟩ := by
  have h := isel_single_of_term (Idx.int k) h1 h2 hd1 hd2 rfl (applyBasic_int_of_ok hk)
  simpa [Idx.isInt, Option.toList] using h

theorem isel_single_slc {pre post : List String} {spre spost : List Nat}
    {d : String} {n : Nat} {a b : Option Int} {c : Option Int}
    (h1 : pre.length = spre.length) (h2 : post.length = spost.length)
    (hd1 : d ∉ pre) (hd2 : d ∉ post) (hc : c ≠ some 0) :
    Variable.isel ⟨pre ++ d :: post, spre ++ n :: spost⟩ [(d, Idx.slc a b c)] "raise"
      = .ok ⟨pre ++ d :: post, spre ++ sliceLenVal n a b c :: spost⟩ := by
  have h := isel_single_of_term (n := n) (Idx.slc a b c) h1 h2 hd1 hd2 rfl
    (applyBasic_slc_of_step (n := n) hc)
  simpa [Idx.isInt, Option.toList] using h

theorem isel_unknown_keys {v : Variable} {idx : Dict} {pol : String}
    (hpol : pol = "warn" ∨ pol = "ignore")
    (hkeys : ∀ p ∈ idx, p.1 ∉ v.dims) (hi : v.dims.length = v.shape.length) :
    v.isel idx pol = .ok ⟨v.dims, v.shape⟩ := by
  rw [isel_key_filter hpol]
  have hmap : v.dims.map (fun d => (dictGet idx d).getD fullSlice)
      = List.replicate v.dims.length fullSlice := by
    rw [List.map_congr_left (g := fun _ => fullSlice), List.map_const']
    intro d hd
    rw [dictGet_none_of_no_key (fun p hp he => hkeys p hp (he ▸ hd))]
    rfl
  rw [hmap]
  have hb : ∀ u ∈ List.replicate v.dims.length fullSlice, u.isBasic = true := by
    intro u hu
    rw [List.eq_of_mem_replicate hu]
    rfl
  have hklen : (List.replicate v.dims.length fullSlice).length = v.shape.length := by
    rw [List.length_replicate]
    exact hi
  have hax := zipRepl_exceptMap_of_len v.shape hi
  have hlen2 : (((List.replicate v.dims.length fullSlice).zip v.dims).filterMap
        (fun p => if p.1.isInt then none else some p.2)).length
      = ((v.shape.map some).filterMap id).length := by
    rw [zipRepl_filterMap_of_len v.dims rfl, filterMap_id_map_some]
    exact hi
  have hres := getitem_basic hb hklen hax hlen2
  rw [hres, zipRepl_filterMap_of_len v.dims rfl, filterMap_id_map_some]

theorem isel_missing_raise {v : Variable} {idx : Dict}
    (h : ¬ invalidKeys idx v.dims = []) :
    v.isel idx "raise" = .error (.missingDims (invalidKeys idx v.dims) v.dims) := by
  unfold Variable.isel drop_dims_from_indexers
  rw [if_pos rfl, if_neg (by simpa [List.isEmpty_iff] using h)]
  rfl

theorem drop_dims_warn (idx : Dict) (dims : List String) :
    drop_dims_from_indexers idx dims "warn"
      = .ok (idx.filter (fun p => dims.contains p.1),
             !(invalidKeys idx dims).isEmpty) := by
  unfold drop_dims_from_indexers
  rw [if_neg (by decide), if_pos rfl]

theorem drop_dims_ignore (idx : Dict) (dims : List String) :
    drop_dims_from_indexers idx dims "ignore"
      = .ok (idx.filter (fun p => dims.contains p.1), false) := by
  unfold drop_dims_from_indexers
  rw [if_neg (by decide), if_neg (by decide), if_pos rfl]

theorem drop_dims_bad_option (idx : Dict) (dims : List String) {pol : String}
    (h1 : pol ≠ "raise") (h2 : pol ≠ "warn") (h3 : pol ≠ "ignore") :
    drop_dims_from_indexers idx dims pol = .error (.badMissingDimsOption pol) := by
  unfold drop_dims_from_indexers
  rw [if_neg h1, if_neg h2, if_neg h3]

theorem isel_bad_option {v : Variable} {idx : Dict} {pol : String}
    (h1 : pol ≠ "raise") (h2 : pol ≠ "warn") (h3 : pol ≠ "ignore") :
    v.isel idx pol = .error (.badMissingDimsOption pol) := by
  unfold Variable.isel
  rw [drop_dims_bad_option idx v.dims h1 h2 h3]
  rfl

theorem Variable_mk_ok {dims : List String} {shape : List Nat} {v : Variable}
    (h : Variable.mk? dims shape = .ok v) :
    v = ⟨dims, shape⟩ ∧ dims.length = shape.length := by
  unfold Variable.mk? at h
  by_cases hc : dims.length = shape.length
  · rw [if_pos hc] at h
    exact ⟨(Except.ok.injEq _ _ ▸ h).symm, hc⟩
  · rw [if_neg hc] at h
    exact absurd h (by simp)

theorem getitem_ok_inv {v : Variable} {key : List Idx} {v2 : Variable}
    (h : v.getitem key = .ok v2) : v2.dims.length = v2.shape.length := by
  unfold Variable.getitem at h
  rcases bind_eq_ok h with ⟨ek, _, h2⟩
  by_cases hb : ek.all Idx.isBasic = true
  · rw [if_pos hb] at h2
    rcases bind_eq_ok h2 with ⟨bk, _, h3⟩
    rcases bind_eq_ok h3 with ⟨res, _, h4⟩
    rcases Variable_mk_ok h4 with ⟨hv2, hlen⟩
    rw [hv2]
    exact hlen
  · rw [if_neg hb] at h2
    exact absurd h2 (by simp)

theorem isel_ok_inv {v : Variable} {idx : Dict} {pol : String} {v2 : Variable}
    (h : v.isel idx pol = .ok v2) : v2.dims.length = v2.shape.length := by
  unfold Variable.isel at h
  rcases bind_eq_ok h with ⟨fi, _, h2⟩
  exact getitem_ok_inv h2

theorem not_nodup_dedup_lt {l : List String} (h : ¬ l.Nodup) :
    l.dedup.length < l.length := by
  rcases Nat.lt_or_ge l.dedup.length l.length with hlt | hge
  · exact hlt
  · exfalso
    have hsub := List.dedup_sublist l
    have hle := hsub.length_le
    have heq : l.dedup.length = l.length := Nat.le_antisymm hle hge
    have : l.dedup = l := hsub.eq_of_length heq
    exact h (this ▸ l.nodup_dedup)

theorem get_axis_num_dup {v : Variable} (d : String) (h : ¬ v.dims.Nodup) :
    v.get_axis_num d = .error (.duplicateDims (repeatedDims v.dims) v.dims) := by
  unfold Variable.get_axis_num _raise_if_any_duplicate_dimensions
  rw [if_pos (not_nodup_dedup_lt h)]
  rfl

/-! ## Claim theorems -/

/-- C7: for every `Variable`, `len(dims) == rank(data)` always holds:
construction with a wrong-length dims sequence fails with the length-mismatch
error (and a successful construction returns exactly the given dims and data,
never truncating or padding); reassigning `dims` with a wrong-length value
fails and a successful reassignment preserves the invariant; replacing `data`
with a tensor of a different shape fails and a successful replacement keeps
the shape; and every `Variable` produced by `isel` satisfies the invariant. -/
theorem C7_rank_invariant :
    (∀ (dims : List String) (shape : List Nat),
      (dims.length = shape.length → Variable.mk? dims shape = .ok ⟨dims, shape⟩) ∧
      (dims.length ≠ shape.length →
        Variable.mk? dims shape = .error (.dimsLengthMismatch dims shape.length)) ∧
      (∀ v, Variable.mk? dims shape = .ok v →
        v.dims = dims ∧ v.shape = shape ∧ v.dims.length = v.shape.length)) ∧
    (∀ (v : Variable) (nd : List String),
      (nd.length ≠ v.ndim →
        v.setDims? nd = .error (.dimsLengthMismatch nd v.ndim)) ∧
      (∀ v2, v.setDims? nd = .ok v2 →
        v2.dims = nd ∧ v2.shape = v.shape ∧ v2.dims.length = v2.shape.length)) ∧
    (∀ (v : Variable) (ns : List Nat),
      (ns ≠ v.shape → v.setData? ns = .error (.shapeMismatch ns v.shape)) ∧
      (∀ v2, v.setData? ns = .ok v2 →
        v2.dims = v.dims ∧ v2.shape = v.shape ∧
        (v.dims.length = v.shape.length → v2.dims.length = v2.shape.length))) ∧
    (∀ (v : Variable) (idx : Dict) (pol : String) (v2 : Variable),
      v.isel idx pol = .ok v2 → v2.dims.length = v2.shape.length) := by
  refine ⟨fun dims shape => ⟨?_, ?_, ?_⟩, fun v nd => ⟨?_, ?_⟩,
    fun v ns => ⟨?_, ?_⟩, fun v idx pol v2 h => isel_ok_inv h⟩
  · intro h
    unfold Variable.mk?
    rw [if_pos h]
  · intro h
    unfold Variable.mk?
    rw [if_neg h]
  · intro v h
    rcases Variable_mk_ok h with ⟨hv, hlen⟩
    rw [hv]
    exact ⟨rfl, rfl, hlen⟩
  · intro h
    unfold Variable.setDims?
    rw [if_neg h]
  · intro v2 h
    unfold Variable.setDims? at h
    by_cases hc : nd.length = v.ndim
    · rw [if_pos hc] at h
      have hv2 : v2 = ⟨nd, v.shape⟩ := (Except.ok.injEq _ _ ▸ h).symm
      rw [hv2]
      exact ⟨rfl, rfl, hc⟩
    · rw [if_neg hc] at h
      exact absurd h (by simp)
  · intro h
    unfold Variable.setData?
    rw [if_neg h]
  · intro v2 h
    unfold Variable.setData? at h
    by_cases hc : ns = v.shape
    · rw [if_pos hc] at h
      have hv2 : v2 = ⟨v.dims, ns⟩ := (Except.ok.injEq _ _ ▸ h).symm
      rw [hv2, hc]
      exact ⟨rfl, rfl, fun hi => hi⟩
    · rw [if_neg hc] at h
      exact absurd h (by simp)

/-- C7 witness: the invariant facts evaluated at concrete inputs: a 1-name
dims over a rank-2 tensor fails, a matching construction succeeds, a
wrong-length dims reassignment fails, a wrong-shape data replacement fails,
and a concrete isel result satisfies the invariant. -/
theorem C7_witness :
    Variable.mk? ["x"] [2, 3] = .error (.dimsLengthMismatch ["x"] 2) ∧
    Variable.mk? ["x", "y"] [2, 3] = .ok ⟨["x", "y"], [2, 3]⟩ ∧
    Variable.setDims? ⟨["x", "y"], [2, 3]⟩ ["z"]
      = .error (.dimsLengthMismatch ["z"] 2) ∧
    Variable.setData? ⟨["x", "y"], [2, 3]⟩ [2, 4]
      = .error (.shapeMismatch [2, 4] [2, 3]) ∧
    (Variable.mk [] [] : Variable).dims.length = (Variable.mk [] [] : Variable).shape.length :=
  ⟨(C7_rank_invariant.1 ["x"] [2, 3]).2.1 (by decide),
   (C7_rank_invariant.1 ["x", "y"] [2, 3]).1 (by decide),
   (C7_rank_invariant.2.1 ⟨["x", "y"], [2, 3]⟩ ["z"]).1 (by decide),
   (C7_rank_invariant.2.2.1 ⟨["x", "y"], [2, 3]⟩ [2, 4]).1 (by decide),
   C7_rank_invariant.2.2.2 ⟨["x", "x"], [2, 3]⟩ [("x", Idx.int 0)] "raise" ⟨[], []⟩
     (by decide)⟩

/-- C6 counterexample: a `Variable` with the duplicated dims `("x","x")` does
not raise on `isel({"x": 0})` — the operation succeeds, applying the integer
to both axes — contradicting the claim that isel raises an error for every
indexer mapping on duplicated dims. -/
theorem C6_counterexample :
    Variable.isel ⟨["x", "x"], [2, 3]⟩ [("x", Idx.int 0)] "raise"
      = .ok ⟨[], []⟩ := by decide

/-- C6 (amended): on a `Variable` with duplicate dimension names, axis-number
resolution (`get_axis_num`) is a hard error identifying the duplicated names;
`Variable.isel`, however, performs no duplicate check — it simply applies the
supplied term at every axis bearing that name (e.g. `("x","x")` over a 2×3
tensor with `{"x": 0}` collapses both axes and returns a 0-d result). -/
theorem C6_amended :
    (∀ (v : Variable) (d : String), ¬ v.dims.Nodup →
      v.get_axis_num d = .error (.duplicateDims (repeatedDims v.dims) v.dims)) ∧
    Variable.isel ⟨["x", "x"], [2, 3]⟩ [("x", Idx.int 0)] "raise" = .ok ⟨[], []⟩ :=
  ⟨fun v d h => get_axis_num_dup d h, by decide⟩

/-- C6 witness: the amended claim evaluated on the concrete duplicated-dims
variable `("x","x")`. -/
theorem C6_witness :
    Variable.get_axis_num ⟨["x", "x"], [2, 3]⟩ "x"
      = .error (.duplicateDims ["x"] ["x", "x"]) ∧
    Variable.isel ⟨["x", "x"], [2, 3]⟩ [("x", Idx.int 0)] "raise" = .ok ⟨[], []⟩ :=
  ⟨C6_amended.1 ⟨["x", "x"], [2, 3]⟩ "x" (by decide), C6_amended.2⟩

theorem npGet_ok_inv {shape : List Nat} {key : List Idx} {res : NpValue}
    (h : npGet shape key = .ok res) :
    res.isArray = !(key.countP (fun t => t == Idx.ellipsis) == 0
        && key.all Idx.isInt && key.length == shape.length)
    ∧ ∃ axes, exceptMap (fun p => applyBasic p.1 p.2)
        ((npExpand shape.length key).zip shape) = .ok axes
        ∧ res.shape = axes.filterMap id := by
  unfold npGet at h
  by_cases h1 : 1 < key.countP (fun t => t == Idx.ellipsis)
  · rw [if_pos h1] at h
    exact absurd h (by simp)
  · rw [if_neg h1] at h
    by_cases h2 : shape.length < key.length - key.countP (fun t => t == Idx.ellipsis)
    · rw [if_pos h2] at h
      exact absurd h (by simp)
    · rw [if_neg h2] at h
      rcases bind_eq_ok h with ⟨axes, hax, hp⟩
      rw [pure_eq_ok, Except.ok.injEq] at hp
      subst hp
      exact ⟨rfl, axes, hax, rfl⟩

theorem exceptMap_int_axes {key : List Idx} :
    ∀ {shape : List Nat} {axes : List (Option Nat)},
    (∀ t ∈ key, t.isInt = true) →
    exceptMap (fun p => applyBasic p.1 p.2) (key.zip shape) = .ok axes →
    axes.filterMap id = [] := by
  induction key with
  | nil =>
    intro shape axes _ h
    have h2 : (Except.ok [] : Except Err (List (Option Nat))) = .ok axes := by
      cases shape <;> exact h
    rw [Except.ok.injEq] at h2
    rw [← h2]
    rfl
  | cons t ts ih =>
    intro shape axes hall h
    cases shape with
    | nil =>
      have h2 : (Except.ok [] : Except Err (List (Option Nat))) = .ok axes := h
      rw [Except.ok.injEq] at h2
      rw [← h2]
      rfl
    | cons n ns =>
      rw [List.zip_cons_cons, exceptMap_cons] at h
      rcases bind_eq_ok h with ⟨a0, ha0, h2⟩
      rcases bind_eq_ok h2 with ⟨rest, hrest, h3⟩
      rw [Except.ok.injEq] at h3
      subst h3
      have ht : t.isInt = true := hall t (List.mem_cons_self _ _)
      have ha0n : a0 = none := by
        cases t with
        | int k =>
          have ha0b : (if intOk k n = true then (Except.ok none : Except Err (Option Nat))
              else .error (.indexOutOfBounds k n)) = .ok a0 := ha0
          by_cases hik : intOk k n = true
          · rw [if_pos hik, Except.ok.injEq] at ha0b
            exact ha0b.symm
          · rw [if_neg hik] at ha0b
            exact absurd ha0b (by simp)
        | slc a b c => simp [Idx.isInt] at ht
        | ellipsis => simp [Idx.isInt] at ht
      subst ha0n
      rw [List.filterMap_cons]
      exact ih (fun u hu => hall u (List.mem_cons_of_mem _ hu)) hrest

/-- C9: the numpy adapter's read for a `BasicIndexer` appends an `Ellipsis`
term before delegating to the tensor's native indexing (definitionally), so
every successful read is an array-shaped value (`isArray`), never an
unwrapped scalar — and a full tuple of integers yields a 0-dimensional
array (empty result shape). -/
theorem C9_adapter_always_array :
    (∀ (shape : List Nat) (key : List Idx),
      NumpyIndexingAdapter.getitem shape key = npGet shape (key ++ [Idx.ellipsis])) ∧
    (∀ (shape : List Nat) (key : List Idx) (res : NpValue),
      NumpyIndexingAdapter.getitem shape key = .ok res → res.isArray = true) ∧
    (∀ (shape : List Nat) (key : List Idx) (res : NpValue),
      (∀ t ∈ key, t.isInt = true) → key.length = shape.length →
      NumpyIndexingAdapter.getitem shape key = .ok res → res.shape = []) := by
  refine ⟨fun shape key => rfl, ?_, ?_⟩
  · intro shape key res h
    rcases npGet_ok_inv h with ⟨hia, _⟩
    rw [hia, List.countP_append]
    simp
  · intro shape key res hall hlen h
    have hne : ∀ t ∈ key, t ≠ Idx.ellipsis := by
      intro t ht he
      have h2 := hall t ht
      rw [he] at h2
      exact absurd h2 (by decide)
    rcases npGet_ok_inv h with ⟨_, axes, hax, hsh⟩
    rw [npExpand_basic hne hlen] at hax
    rw [hsh]
    exact exceptMap_int_axes hall hax

/-- C9 witness: a concrete all-integer read through the adapter produces a
0-dimensional array-shaped result, never a scalar. -/
theorem C9_witness :
    NumpyIndexingAdapter.getitem [4, 3] [Idx.int 0, Idx.int 1]
      = npGet [4, 3] [Idx.int 0, Idx.int 1, Idx.ellipsis] ∧
    (NpValue.mk true [] : NpValue).isArray = true ∧
    (NpValue.mk true [] : NpValue).shape = [] :=
  ⟨C9_adapter_always_array.1 [4, 3] [Idx.int 0, Idx.int 1],
   C9_adapter_always_array.2.1 [4, 3] [Idx.int 0, Idx.int 1] ⟨true, []⟩ (by decide),
   C9_adapter_always_array.2.2 [4, 3] [Idx.int 0, Idx.int 1] ⟨true, []⟩
     (by decide) (by decide) (by decide)⟩

/-- C4: the missing-dims policies: under `raise` an unknown dimension name is
a hard error carrying the offending keys; under `ignore` unknown names are
silently dropped and `isel` with only unknown names returns an object with
the input's dims and shape; `warn` filters exactly as `ignore` does (same
dict) and additionally records that a warning was emitted exactly when
unknown names were present; any other policy string is itself a hard error. -/
theorem C4_missing_dims_policies :
    (∀ (v : Variable) (idx : Dict), ¬ invalidKeys idx v.dims = [] →
      v.isel idx "raise" = .error (.missingDims (invalidKeys idx v.dims) v.dims)) ∧
    (∀ (v : Variable) (idx : Dict) (pol : String), (pol = "warn" ∨ pol = "ignore") →
      (∀ p ∈ idx, p.1 ∉ v.dims) → v.dims.length = v.shape.length →
      v.isel idx pol = .ok ⟨v.dims, v.shape⟩) ∧
    (∀ (idx : Dict) (dims : List String),
      drop_dims_from_indexers idx dims "warn"
        = .ok (idx.filter (fun p => dims.contains p.1),
               !(invalidKeys idx dims).isEmpty) ∧
      drop_dims_from_indexers idx dims "ignore"
        = .ok (idx.filter (fun p => dims.contains p.1), false)) ∧
    (∀ (v : Variable) (idx : Dict) (pol : String),
      pol ≠ "raise" → pol ≠ "warn" → pol ≠ "ignore" →
      v.isel idx pol = .error (.badMissingDimsOption pol)) :=
  ⟨fun v idx h => isel_missing_raise h,
   fun v idx pol hpol hk hi => isel_unknown_keys hpol hk hi,
   fun idx dims => ⟨drop_dims_warn idx dims, drop_dims_ignore idx dims⟩,
   fun v idx pol h1 h2 h3 => isel_bad_option h1 h2 h3⟩

/-- C4 witness: the four policies evaluated at the concrete variable
`("x","y")` of shape `(4,3)` with the unknown name `"nonexistent"`. -/
theorem C4_witness :
    Variable.isel ⟨["x", "y"], [4, 3]⟩ [("nonexistent", Idx.int 0)] "raise"
      = .error (.missingDims ["nonexistent"] ["x", "y"]) ∧
    Variable.isel ⟨["x", "y"], [4, 3]⟩ [("nonexistent", Idx.int 0)] "ignore"
      = .ok ⟨["x", "y"], [4, 3]⟩ ∧
    Variable.isel ⟨["x", "y"], [4, 3]⟩ [("nonexistent", Idx.int 0)] "warn"
      = .ok ⟨["x", "y"], [4, 3]⟩ ∧
    drop_dims_from_indexers [("nonexistent", Idx.int 0)] ["x", "y"] "warn"
      = .ok ([], true) ∧
    Variable.isel ⟨["x", "y"], [4, 3]⟩ [("nonexistent", Idx.int 0)] "oops"
      = .error (.badMissingDimsOption "oops") :=
  ⟨C4_missing_dims_policies.1 ⟨["x", "y"], [4, 3]⟩ [("nonexistent", Idx.int 0)]
     (by decide),
   C4_missing_dims_policies.2.1 ⟨["x", "y"], [4, 3]⟩ [("nonexistent", Idx.int 0)]
     "ignore" (Or.inr rfl) (by decide) (by decide),
   C4_missing_dims_policies.2.1 ⟨["x", "y"], [4, 3]⟩ [("nonexistent", Idx.int 0)]
     "warn" (Or.inl rfl) (by decide) (by decide),
   by
     have h := (C4_missing_dims_policies.2.2.1 [("nonexistent", Idx.int 0)]
       ["x", "y"]).1
     simpa using h,
   C4_missing_dims_policies.2.2.2 ⟨["x", "y"], [4, 3]⟩ [("nonexistent", Idx.int 0)]
     "oops" (by decide) (by decide) (by decide)⟩

theorem expandKey_append {ndim L : Nat} {pre : List Idx}
    (h : ∀ t ∈ pre, t ≠ Idx.ellipsis) (rest : List Idx) (b : Bool) :
    expandKey ndim L (pre ++ rest) b = pre ++ expandKey ndim L rest b := by
  induction pre with
  | nil => rfl
  | cons t ts ih =>
    have hts : ∀ u ∈ ts, u ≠ Idx.ellipsis := fun u hu => h u (List.mem_cons_of_mem _ hu)
    cases t with
    | int k =>
      rw [List.cons_append,
        show expandKey ndim L (Idx.int k :: (ts ++ rest)) b
          = Idx.int k :: expandKey ndim L (ts ++ rest) b from rfl,
        ih hts, List.cons_append]
    | slc a b2 c =>
      rw [List.cons_append,
        show expandKey ndim L (Idx.slc a b2 c :: (ts ++ rest)) b
          = Idx.slc a b2 c :: expandKey ndim L (ts ++ rest) b from rfl,
        ih hts, List.cons_append]
    | ellipsis => exact absurd rfl (h _ (List.mem_cons_self _ _))

theorem expanded_indexer_one_ell {pre post : List Idx} {n : Nat}
    (hp : ∀ t ∈ pre, t ≠ Idx.ellipsis) (hq : ∀ t ∈ post, t ≠ Idx.ellipsis)
    (hlen : pre.length + post.length ≤ n) :
    expanded_indexer (pre ++ Idx.ellipsis :: post) n
      = .ok (pre ++ List.replicate (n - (pre.length + post.length)) fullSlice
             ++ post) := by
  have hL : (pre ++ Idx.ellipsis :: post).length = pre.length + post.length + 1 := by
    simp [List.length_append]
    omega
  unfold expanded_indexer
  rw [expandKey_append hp]
  have hstep : expandKey n (pre ++ Idx.ellipsis :: post).length
      (Idx.ellipsis :: post) false
      = List.replicate (n + 1 - (pre ++ Idx.ellipsis :: post).length) fullSlice
        ++ post := by
    rw [show expandKey n (pre ++ Idx.ellipsis :: post).length
        (Idx.ellipsis :: post) false
        = List.replicate (n + 1 - (pre ++ Idx.ellipsis :: post).length) fullSlice
          ++ expandKey n (pre ++ Idx.ellipsis :: post).length post true from rfl,
      expandKey_no_ell hq]
  rw [hstep]
  have hcount : n + 1 - (pre ++ Idx.ellipsis :: post).length
      = n - (pre.length + post.length) := by
    rw [hL]
    omega
  rw [hcount]
  have hnk : (pre ++ (List.replicate (n - (pre.length + post.length)) fullSlice
      ++ post)).length = n := by
    simp only [List.length_append, List.length_replicate]
    omega
  rw [if_neg (by rw [hnk]; omega), hnk, Nat.sub_self]
  simp

theorem expanded_indexer_two_ell {pre mid post : List Idx} {n : Nat}
    (hp : ∀ t ∈ pre, t ≠ Idx.ellipsis) (hm : ∀ t ∈ mid, t ≠ Idx.ellipsis)
    (hq : ∀ t ∈ post, t ≠ Idx.ellipsis)
    (hlen : pre.length + mid.length + post.length + 1 ≤ n) :
    expanded_indexer (pre ++ Idx.ellipsis :: (mid ++ Idx.ellipsis :: post)) n
      = .ok (pre
          ++ List.replicate (n - (pre.length + mid.length + post.length + 1)) fullSlice
          ++ (mid ++ fullSlice :: post)) := by
  have hL : (pre ++ Idx.ellipsis :: (mid ++ Idx.ellipsis :: post)).length
      = pre.length + mid.length + post.length + 2 := by
    simp [List.length_append]
    omega
  unfold expanded_indexer
  rw [expandKey_append hp]
  have hstep : expandKey n (pre ++ Idx.ellipsis :: (mid ++ Idx.ellipsis :: post)).length
      (Idx.ellipsis :: (mid ++ Idx.ellipsis :: post)) false
      = List.replicate
          (n + 1 - (pre ++ Idx.ellipsis :: (mid ++ Idx.ellipsis :: post)).length)
          fullSlice
        ++ (mid ++ fullSlice :: post) := by
    rw [show expandKey n (pre ++ Idx.ellipsis :: (mid ++ Idx.ellipsis :: post)).length
        (Idx.ellipsis :: (mid ++ Idx.ellipsis :: post)) false
        = List.replicate
            (n + 1 - (pre ++ Idx.ellipsis :: (mid ++ Idx.ellipsis :: post)).length)
            fullSlice
          ++ expandKey n (pre ++ Idx.ellipsis :: (mid ++ Idx.ellipsis :: post)).length
              (mid ++ Idx.ellipsis :: post) true from rfl,
      expandKey_append hm]
    rw [show expandKey n (pre ++ Idx.ellipsis :: (mid ++ Idx.ellipsis :: post)).length
        (Idx.ellipsis :: post) true
        = fullSlice :: expandKey n
            (pre ++ Idx.ellipsis :: (mid ++ Idx.ellipsis :: post)).length post true
        from rfl,
      expandKey_no_ell hq]
  rw [hstep]
  have hcount : n + 1 - (pre ++ Idx.ellipsis :: (mid ++ Idx.ellipsis :: post)).length
      = n - (pre.length + mid.length + post.length + 1) := by
    rw [hL]
    omega
  rw [hcount]
  have hnk : (pre ++ (List.replicate
      (n - (pre.length + mid.length + post.length + 1)) fullSlice
      ++ (mid ++ fullSlice :: post))).length = n := by
    simp only [List.length_append, List.length_replicate, List.length_cons]
    omega
  rw [if_neg (by rw [hnk]; omega), hnk, Nat.sub_self]
  simp

/-- C5 counterexample: in the key `(Ellipsis, Ellipsis)` against rank 1 the
second ellipsis is not kept as a literal term: the expansion replaces it by a
full slice (here the first, zero-width expansion vanishes and the whole
result is the single full slice), so the expanded key does not contain the
literal ellipsis the claim's "treated as literal" would require. -/
theorem C5_counterexample :
    expanded_indexer [Idx.ellipsis, Idx.ellipsis] 1 = .ok [Idx.slc none none none]
    ∧ ¬ expanded_indexer [Idx.ellipsis, Idx.ellipsis] 1 = .ok [Idx.ellipsis] := by
  constructor
  · decide
  · decide

/-- C5 (amended): every successful expansion has length exactly `n`; a single
ellipsis is replaced by exactly enough full slices to reach rank `n`; a
second ellipsis occurrence is not expanded — it is replaced by a single
full-slice term; a sequence that would exceed `n` terms fails with the
too-many-indices error (in particular any ellipsis-free key longer than `n`);
an ellipsis-free key not longer than `n` is right-padded with full slices. -/
theorem C5_expanded_indexer :
    (∀ (key : List Idx) (n : Nat) (r : List Idx),
      expanded_indexer key n = .ok r → r.length = n) ∧
    (∀ (pre post : List Idx) (n : Nat),
      (∀ t ∈ pre, t ≠ Idx.ellipsis) → (∀ t ∈ post, t ≠ Idx.ellipsis) →
      pre.length + post.length ≤ n →
      expanded_indexer (pre ++ Idx.ellipsis :: post) n
        = .ok (pre ++ List.replicate (n - (pre.length + post.length)) fullSlice
               ++ post)) ∧
    (∀ (pre mid post : List Idx) (n : Nat),
      (∀ t ∈ pre, t ≠ Idx.ellipsis) → (∀ t ∈ mid, t ≠ Idx.ellipsis) →
      (∀ t ∈ post, t ≠ Idx.ellipsis) →
      pre.length + mid.length + post.length + 1 ≤ n →
      expanded_indexer (pre ++ Idx.ellipsis :: (mid ++ Idx.ellipsis :: post)) n
        = .ok (pre
            ++ List.replicate (n - (pre.length + mid.length + post.length + 1))
                fullSlice
            ++ (mid ++ fullSlice :: post))) ∧
    (∀ (key : List Idx) (n : Nat),
      n < (expandKey n key.length key false).length →
      expanded_indexer key n = .error .tooManyIndices) ∧
    (∀ (key : List Idx) (n : Nat),
      (∀ t ∈ key, t ≠ Idx.ellipsis) → n < key.length →
      expanded_indexer key n = .error .tooManyIndices) ∧
    (∀ (key : List Idx) (n : Nat),
      (∀ t ∈ key, t ≠ Idx.ellipsis) → key.length ≤ n →
      expanded_indexer key n
        = .ok (key ++ List.replicate (n - key.length) fullSlice)) := by
  refine ⟨fun key n r h => expanded_indexer_ok_length h,
    fun pre post n hp hq hlen => expanded_indexer_one_ell hp hq hlen,
    fun pre mid post n hp hm hq hlen => expanded_indexer_two_ell hp hm hq hlen,
    ?_,
    ?_,
    fun key n h hlen => expanded_indexer_no_ell h hlen⟩
  · intro key n h
    unfold expanded_indexer
    rw [if_pos h]
  · intro key n h hlen
    unfold expanded_indexer
    rw [expandKey_no_ell h, if_pos hlen]

/-- C5 witness: the amended expansion rules evaluated on concrete keys of
rank 3: a single ellipsis expands to two full slices, a second ellipsis
becomes one full slice, four integers overflow rank 3, and a short key is
right-padded. -/
theorem C5_witness :
    expanded_indexer [Idx.int 0, Idx.ellipsis] 3
      = .ok [Idx.int 0, fullSlice, fullSlice] ∧
    expanded_indexer [Idx.ellipsis, Idx.int 0, Idx.ellipsis] 3
      = .ok [fullSlice, Idx.int 0, fullSlice] ∧
    expanded_indexer [Idx.int 0, Idx.int 1, Idx.int 2, Idx.int 3] 3
      = .error .tooManyIndices ∧
    expanded_indexer [Idx.int 0] 3 = .ok [Idx.int 0, fullSlice, fullSlice] := by
  refine ⟨?_, ?_, ?_, ?_⟩
  · have h := C5_expanded_indexer.2.1 [Idx.int 0] [] 3 (by decide) (by decide)
      (by decide)
    simpa using h
  · have h := C5_expanded_indexer.2.2.1 [] [Idx.int 0] [] 3 (by decide) (by decide)
      (by decide) (by decide)
    simpa using h
  · exact C5_expanded_indexer.2.2.2.2.1 [Idx.int 0, Idx.int 1, Idx.int 2, Idx.int 3] 3
      (by decide) (by decide)
  · have h := C5_expanded_indexer.2.2.2.2.2 [Idx.int 0] 3 (by decide) (by decide)
    simpa using h

theorem exceptIter_ok {α : Type} {f : α → Except Err Unit} :
    ∀ {l : List α}, exceptIter f l = .ok () → ∀ x ∈ l, f x = .ok () := by
  intro l
  induction l with
  | nil => intro _ x hx; cases hx
  | cons y ys ih =>
    intro h x hx
    unfold exceptIter at h
    rcases bind_eq_ok h with ⟨u, hu, hrest⟩
    rcases List.mem_cons.1 hx with hxy | hxys
    · subst hxy
      cases u
      exact hu
    · exact ih hrest x hxys

theorem checkOneCoord_ok {sizes : List (String × Nat)} {dims : List String}
    {k : String} {v : Variable} (h : checkOneCoord sizes dims k v = .ok ()) :
    (∀ d ∈ v.dims, d ∈ dims) ∧ (∀ q ∈ v.sizes, dictGet sizes q.1 = some q.2) := by
  unfold checkOneCoord at h
  by_cases ha : (v.dims.any fun d => !dims.contains d) = true
  · rw [if_pos ha] at h
    exact absurd h (by simp)
  · rw [if_neg ha] at h
    constructor
    · intro d hd
      by_contra hmem
      apply ha
      refine List.any_eq_true.2 ⟨d, hd, ?_⟩
      rw [contains_eq_false_of_not_mem hmem]
      rfl
    · intro q hq
      have hfq := exceptIter_ok h q hq
      cases hg : dictGet sizes q.1 with
      | none =>
        rw [hg] at hfq
        exact absurd hfq (by simp)
      | some n2 =>
        rw [hg] at hfq
        have hfq2 : (if q.2 ≠ n2 then (throw (.conflictingSizes q.1 n2 q.2 k) :
            Except Err Unit) else pure ()) = .ok () := hfq
        by_cases he : q.2 ≠ n2
        · rw [if_pos he] at hfq2
          exact absurd hfq2 (by simp)
        · push_neg at he
          rw [he]

theorem check_coords_ok {shape : List Nat} {coords : List (String × Variable)}
    {dims : List String} (h : _check_coords_dims shape coords dims = .ok ()) :
    ∀ p ∈ coords, (∀ d ∈ p.2.dims, d ∈ dims) ∧
      (∀ q ∈ p.2.sizes, dictGet (pyDict (dims.zip shape)) q.1 = some q.2) := by
  intro p hp
  exact checkOneCoord_ok (exceptIter_ok h p hp)

theorem infer_ok_inv {shape : List Nat} {coords : Option CoordsInput}
    {dims : Option (List String)} {c : List (String × Variable)} {ds : List String}
    (h : _infer_coords_and_dims shape coords dims = .ok (c, ds)) :
    resolveDims shape coords dims = .ok ds ∧ buildCoords ds coords = .ok c ∧
    _check_coords_dims shape c ds = .ok () := by
  unfold _infer_coords_and_dims at h
  rcases bind_eq_ok h with ⟨u1, _, h2⟩
  rcases bind_eq_ok h2 with ⟨ds0, hds, h3⟩
  rcases bind_eq_ok h3 with ⟨tmp, htmp, h4⟩
  rcases bind_eq_ok h4 with ⟨u2, hchk, h5⟩
  rw [pure_eq_ok, Except.ok.injEq] at h5
  have hc : tmp = c := congrArg Prod.fst h5
  have hd : ds0 = ds := congrArg Prod.snd h5
  subst hc
  subst hd
  cases u2
  exact ⟨hds, htmp, hchk⟩

theorem defaultDims_length (rank : Nat) : (defaultDims rank).length = rank := by
  unfold defaultDims
  rw [List.length_map, List.length_range]

theorem resolveDims_ok_len {shape : List Nat} {coords : Option CoordsInput}
    {dims : Option (List String)} {ds : List String}
    (h : resolveDims shape coords dims = .ok ds) : ds.length = shape.length := by
  cases dims with
  | none =>
    cases coords with
    | none =>
      have h2 : (Except.ok (defaultDims shape.length) : Except Err (List String))
          = .ok ds := h
      rw [Except.ok.injEq] at h2
      rw [← h2]
      exact defaultDims_length _
    | some ci =>
      cases ci with
      | seq l =>
        have h2 : (Except.ok (defaultDims shape.length) : Except Err (List String))
            = .ok ds := h
        rw [Except.ok.injEq] at h2
        rw [← h2]
        exact defaultDims_length _
      | map m =>
        have h2 : (Except.ok (if (pyDict m).length = shape.length
            then (pyDict m).map Prod.fst else defaultDims shape.length) :
            Except Err (List String)) = .ok ds := h
        rw [Except.ok.injEq] at h2
        rw [← h2]
        by_cases hc : (pyDict m).length = shape.length
        · rw [if_pos hc, List.length_map]
          exact hc
        · rw [if_neg hc]
          exact defaultDims_length _
  | some ds0 =>
    have h2 : (if ds0.length ≠ shape.length
        then (Except.error (.dataDimsMismatch shape.length ds0.length) :
          Except Err (List String))
        else .ok ds0) = .ok ds := h
    by_cases hc : ds0.length ≠ shape.length
    · rw [if_pos hc] at h2
      exact absurd h2 (by simp)
    · rw [if_neg hc] at h2
      rw [Except.ok.injEq] at h2
      push_neg at hc
      rw [← h2]
      exact hc

theorem DataArray_mk_ok {shape : List Nat} {coords : Option CoordsInput}
    {dims : Option (List String)} {name : Option String} {da : DataArray}
    (h : DataArray.mk? shape coords dims name = .ok da) :
    ∃ c ds, _infer_coords_and_dims shape coords dims = .ok (c, ds) ∧
      ds.length = shape.length ∧ da = ⟨⟨ds, shape⟩, c, ds, name⟩ := by
  unfold DataArray.mk? at h
  rcases bind_eq_ok h with ⟨r, hr, h2⟩
  rcases bind_eq_ok h2 with ⟨v, hv, h3⟩
  rcases Variable_mk_ok hv with ⟨hveq, hlen⟩
  rw [pure_eq_ok, Except.ok.injEq] at h3
  refine ⟨r.1, r.2, by rw [← hr], hlen, ?_⟩
  rw [← h3, hveq]

theorem DataArray_isel_ok {da : DataArray} {idx : Dict} {drop : Bool}
    {pol : String} {da2 : DataArray} (h : da.isel idx drop pol = .ok da2) :
    (idx.any fun p => is_fancy_indexer p.2) = false ∧
    ∃ v cs, da.var.isel idx pol = .ok v ∧ iselCoords idx drop da.coords = .ok cs ∧
      DataArray.mk? v.shape
        (some (.map (cs.map (fun p => (p.1, CoordVal.var p.2)))))
        (some (da.dims.filter (fun d =>
          match dictGet idx d with
          | some (.int _) => false
          | _ => true))) da.name = .ok da2 := by
  unfold DataArray.isel at h
  by_cases hf : (idx.any fun p => is_fancy_indexer p.2) = true
  · rw [if_pos hf] at h
    exact absurd h (by simp)
  · rw [if_neg hf] at h
    rcases bind_eq_ok h with ⟨v, hv, h2⟩
    rcases bind_eq_ok h2 with ⟨cs, hcs, h3⟩
    exact ⟨by simpa using hf, v, cs, hv, hcs, h3⟩

/-- C2: for every `DataArray`, after construction and after every `isel`
(any indexers, `drop` flag and missing-dims policy), the separately stored
`_dims` tuple agrees with the owned variable's dims, and the shape property
(which delegates to the variable) agrees with the variable's shape. -/
theorem C2_dims_shape_invariant :
    (∀ (shape : List Nat) (coords : Option CoordsInput) (dims : Option (List String))
       (name : Option String) (da : DataArray),
      DataArray.mk? shape coords dims name = .ok da →
      da.dims = da.var.dims ∧ da.shape = da.var.shape) ∧
    (∀ (da : DataArray) (idx : Dict) (drop : Bool) (pol : String) (da2 : DataArray),
      da.isel idx drop pol = .ok da2 →
      da2.dims = da2.var.dims ∧ da2.shape = da2.var.shape) := by
  have hmk : ∀ (shape : List Nat) (coords : Option CoordsInput)
      (dims : Option (List String)) (name : Option String) (da : DataArray),
      DataArray.mk? shape coords dims name = .ok da →
      da.dims = da.var.dims ∧ da.shape = da.var.shape := by
    intro shape coords dims name da h
    rcases DataArray_mk_ok h with ⟨c, ds, _, _, hda⟩
    rw [hda]
    exact ⟨rfl, rfl⟩
  refine ⟨hmk, ?_⟩
  intro da idx drop pol da2 h
  rcases DataArray_isel_ok h with ⟨_, v, cs, _, _, hfin⟩
  exact hmk _ _ _ _ _ hfin

/-- C2 witness: the invariant checked on a concretely constructed (4,3)
array with coordinates and on the result of a concrete `isel`. -/
theorem C2_witness :
    ((⟨⟨["x", "y"], [4, 3]⟩, [("x", ⟨["x"], [4]⟩), ("y", ⟨["y"], [3]⟩)],
        ["x", "y"], none⟩ : DataArray).dims
      = (⟨⟨["x", "y"], [4, 3]⟩, [("x", ⟨["x"], [4]⟩), ("y", ⟨["y"], [3]⟩)],
        ["x", "y"], none⟩ : DataArray).var.dims) ∧
    ((⟨⟨["y"], [3]⟩, [("x", ⟨[], []⟩), ("y", ⟨["y"], [3]⟩)],
        ["y"], none⟩ : DataArray).dims
      = (⟨⟨["y"], [3]⟩, [("x", ⟨[], []⟩), ("y", ⟨["y"], [3]⟩)],
        ["y"], none⟩ : DataArray).var.dims) :=
  ⟨(C2_dims_shape_invariant.1 [4, 3]
      (some (.map [("x", .raw [4]), ("y", .raw [3])])) (some ["x", "y"]) none
      ⟨⟨["x", "y"], [4, 3]⟩, [("x", ⟨["x"], [4]⟩), ("y", ⟨["y"], [3]⟩)],
        ["x", "y"], none⟩ (by decide)).1,
   (C2_dims_shape_invariant.2
      ⟨⟨["x", "y"], [4, 3]⟩, [("x", ⟨["x"], [4]⟩), ("y", ⟨["y"], [3]⟩)],
        ["x", "y"], none⟩
      [("x", Idx.int 0)] false "raise"
      ⟨⟨["y"], [3]⟩, [("x", ⟨[], []⟩), ("y", ⟨["y"], [3]⟩)], ["y"], none⟩
      (by decide)).1⟩

/-- C8: the constructor validates every coordinate against the final shape
and dims: on success, every coordinate's dimension names are among the
owner's dims and each of its per-dimension sizes equals the owner's size for
that dimension; and a non-mapping coordinate sequence whose item count
differs from the tensor rank fails with the error naming both counts. -/
theorem C8_construction_validation :
    (∀ (shape : List Nat) (coords : Option CoordsInput) (dims : Option (List String))
       (name : Option String) (da : DataArray),
      DataArray.mk? shape coords dims name = .ok da →
      ∀ p ∈ da.coords,
        (∀ d ∈ p.2.dims, d ∈ da.dims) ∧
        (∀ q ∈ p.2.sizes, dictGet (pyDict (da.dims.zip da.var.shape)) q.1 = some q.2)) ∧
    (∀ (shape : List Nat) (l : List CoordVal) (dims : Option (List String))
       (name : Option String),
      l.length ≠ shape.length →
      DataArray.mk? shape (some (.seq l)) dims name
        = .error (.coordsLenMismatch l.length shape.length)) := by
  constructor
  · intro shape coords dims name da h
    rcases DataArray_mk_ok h with ⟨c, ds, hinf, _, hda⟩
    rcases infer_ok_inv hinf with ⟨_, _, hchk⟩
    have hcoords := check_coords_ok hchk
    rw [hda]
    intro p hp
    exact hcoords p hp
  · intro shape l dims name h
    have hc : checkSeqLen shape (some (.seq l))
        = .error (.coordsLenMismatch l.length shape.length) := by
      show (if l.length ≠ shape.length
          then (Except.error (Err.coordsLenMismatch l.length shape.length) :
            Except Err Unit)
          else .ok ()) = _
      rw [if_pos h]
    unfold DataArray.mk? _infer_coords_and_dims
    rw [hc]
    rfl

/-- C8 witness: a valid construction whose coordinates pass the check, and
the concrete failing case of a 3-item coordinate list for a 2-dimensional
(4,3) tensor, failing with the error naming 3 and 2. -/
theorem C8_witness :
    (∀ d ∈ (Variable.mk ["x"] [4] : Variable).dims,
      d ∈ (["x", "y"] : List String)) ∧
    DataArray.mk? [4, 3] (some (.seq [.raw [4], .raw [3], .raw [2]])) none none
      = .error (.coordsLenMismatch 3 2) :=
  ⟨(C8_construction_validation.1 [4, 3]
      (some (.map [("x", .raw [4]), ("y", .raw [3])])) (some ["x", "y"]) none
      ⟨⟨["x", "y"], [4, 3]⟩,
        [("x", ⟨["x"], [4]⟩), ("y", ⟨["y"], [3]⟩)], ["x", "y"], none⟩
      (by decide) ("x", ⟨["x"], [4]⟩) (by decide)).1,
   C8_construction_validation.2 [4, 3] [.raw [4], .raw [3], .raw [2]] none none
     (by decide)⟩

theorem upsert_append {β : Type} {acc : List (String × β)} {k : String} (v : β)
    (h : k ∉ acc.map Prod.fst) : upsert acc k v = acc ++ [(k, v)] := by
  unfold upsert
  rw [if_neg]
  intro hc
  rcases List.any_eq_true.1 hc with ⟨q, hq, hqe⟩
  have hqk : q.1 = k := by simpa using hqe
  exact h (hqk ▸ List.mem_map_of_mem Prod.fst hq)

theorem foldl_upsert_eq {β : Type} :
    ∀ (l acc : List (String × β)),
    (acc.map Prod.fst ++ l.map Prod.fst).Nodup →
    l.foldl (fun d p => upsert d p.1 p.2) acc = acc ++ l := by
  intro l
  induction l with
  | nil =>
    intro acc _
    simp
  | cons p rest ih =>
    intro acc h
    have hmaps : acc.map Prod.fst ++ (p :: rest).map Prod.fst
        = acc.map Prod.fst ++ p.1 :: rest.map Prod.fst := by
      rw [List.map_cons]
    rw [hmaps] at h
    rcases List.nodup_append.1 h with ⟨hn1, hn2, hdisj⟩
    have hnm : p.1 ∉ acc.map Prod.fst := by
      intro hmem
      exact hdisj hmem (List.mem_cons_self _ _)
    have hrec : ((acc ++ [(p.1, p.2)]).map Prod.fst ++ rest.map Prod.fst).Nodup := by
      simp only [List.map_append, List.map_cons, List.map_nil]
      rw [List.append_assoc]
      simpa using h
    rw [List.foldl_cons, upsert_append p.2 hnm, ih (acc ++ [(p.1, p.2)]) hrec]
    simp

theorem pyDict_nodup {β : Type} {l : List (String × β)}
    (h : (l.map Prod.fst).Nodup) : pyDict l = l := by
  unfold pyDict
  have h2 := foldl_upsert_eq l [] (by simpa using h)
  simpa using h2

theorem buildMapCoords_vars {cs : List (String × Variable)}
    (hnd : (cs.map Prod.fst).Nodup) :
    buildMapCoords (cs.map (fun p => (p.1, CoordVal.var p.2))) = .ok cs := by
  unfold buildMapCoords
  have hkeys : (cs.map (fun p => (p.1, CoordVal.var p.2))).map Prod.fst
      = cs.map Prod.fst := by
    rw [List.map_map]
    rfl
  rw [pyDict_nodup (by rw [hkeys]; exact hnd)]
  rw [exceptMap_ok_of_all
    (g := fun p => (p.1, match p.2 with | .var v => v | .raw _ => ⟨[], []⟩))
    (by
      intro x hx
      rcases List.mem_map.1 hx with ⟨p, _, hpx⟩
      rw [← hpx]
      rfl)]
  have hback : (cs.map (fun p => (p.1, CoordVal.var p.2))).map
      (fun p => (p.1, match p.2 with | .var v => v | .raw _ => (⟨[], []⟩ : Variable)))
      = cs := by
    rw [List.map_map]
    have : ∀ p ∈ cs, ((fun p => (p.1,
        match p.2 with | .var v => v | .raw _ => (⟨[], []⟩ : Variable))) ∘
        (fun p => (p.1, CoordVal.var p.2))) p = id p := by
      intro p _
      rfl
    rw [List.map_congr_left this, List.map_id]
  rw [hback]
  simp only [ok_bind]
  rw [pyDict_nodup hnd]

theorem resolveDims_some_ok {shape : List Nat} {coords : Option CoordsInput}
    {nd ds : List String} (h : resolveDims shape coords (some nd) = .ok ds) :
    ds = nd := by
  have h2 : (if nd.length ≠ shape.length
      then (Except.error (.dataDimsMismatch shape.length nd.length) :
        Except Err (List String))
      else .ok nd) = .ok ds := h
  by_cases hc : nd.length ≠ shape.length
  · rw [if_pos hc] at h2
    exact absurd h2 (by simp)
  · rw [if_neg hc] at h2
    rw [Except.ok.injEq] at h2
    exact h2.symm

theorem mk_map_vars_ok {shape : List Nat} {cs : List (String × Variable)}
    {nd : List String} {name : Option String} {da2 : DataArray}
    (hnd : (cs.map Prod.fst).Nodup)
    (h : DataArray.mk? shape
        (some (.map (cs.map (fun p => (p.1, CoordVal.var p.2)))))
        (some nd) name = .ok da2) :
    da2.coords = cs ∧ da2.dims = nd ∧ da2.var = ⟨nd, shape⟩ := by
  rcases DataArray_mk_ok h with ⟨c, ds, hinf, _, hda⟩
  rcases infer_ok_inv hinf with ⟨hds, hbc, _⟩
  have hdsnd : ds = nd := resolveDims_some_ok hds
  have hbc2 : buildMapCoords (cs.map (fun p => (p.1, CoordVal.var p.2))) = .ok c := hbc
  rw [buildMapCoords_vars hnd, Except.ok.injEq] at hbc2
  rw [hda, hdsnd, hbc2]
  exact ⟨rfl, rfl, rfl⟩

theorem segFor_ok_cases {idx : Dict} {drop : Bool} {p : String × Variable}
    {seg : List (String × Variable)} (h : segFor idx drop p = .ok seg) :
    ((idx.filter (fun q => p.2.dims.contains q.1)).isEmpty = true ∧ seg = [p]) ∨
    ((idx.filter (fun q => p.2.dims.contains q.1)).isEmpty = false ∧
      ∃ c2, p.2.isel (idx.filter (fun q => p.2.dims.contains q.1)) "raise" = .ok c2 ∧
        (((drop && c2.ndim == 0) = true ∧ seg = []) ∨
         ((drop && c2.ndim == 0) = false ∧ seg = [(p.1, c2)]))) := by
  unfold segFor at h
  by_cases hc : (idx.filter (fun q => p.2.dims.contains q.1)).isEmpty = true
  · rw [if_pos hc] at h
    rw [Except.ok.injEq] at h
    exact Or.inl ⟨hc, h.symm⟩
  · rw [if_neg hc] at h
    rcases bind_eq_ok h with ⟨c2, hc2, h2⟩
    refine Or.inr ⟨by simpa using hc, c2, hc2, ?_⟩
    by_cases hd : (drop && c2.ndim == 0) = true
    · rw [if_pos hd] at h2
      rw [Except.ok.injEq] at h2
      exact Or.inl ⟨hd, h2.symm⟩
    · rw [if_neg hd] at h2
      rw [Except.ok.injEq] at h2
      exact Or.inr ⟨by simpa using hd, h2.symm⟩

theorem segFor_ok_key {idx : Dict} {drop : Bool} {p : String × Variable}
    {seg : List (String × Variable)} (h : segFor idx drop p = .ok seg) :
    ∀ q ∈ seg, q.1 = p.1 := by
  rcases segFor_ok_cases h with ⟨_, hs⟩ | ⟨_, c2, _, ⟨_, hs⟩ | ⟨_, hs⟩⟩ <;>
    subst hs <;> intro q hq
  · rw [List.mem_singleton] at hq
    rw [hq]
  · cases hq
  · rw [List.mem_singleton] at hq
    rw [hq]

theorem iselCoords_spec {idx : Dict} {drop : Bool} :
    ∀ {cs cs2 : List (String × Variable)},
    iselCoords idx drop cs = .ok cs2 →
    (∀ p ∈ cs, ∃ seg, segFor idx drop p = .ok seg ∧ ∀ q ∈ seg, q ∈ cs2) ∧
    (∀ q ∈ cs2, ∃ p ∈ cs, ∃ seg, segFor idx drop p = .ok seg ∧ q ∈ seg) ∧
    (cs2.map Prod.fst).Sublist (cs.map Prod.fst) := by
  intro cs
  induction cs with
  | nil =>
    intro cs2 h
    have h2 : (Except.ok [] : Except Err (List (String × Variable))) = .ok cs2 := h
    rw [Except.ok.injEq] at h2
    subst h2
    exact ⟨fun p hp => absurd hp (List.not_mem_nil _),
           fun q hq => absurd hq (List.not_mem_nil _), List.Sublist.refl _⟩
  | cons p rest ih =>
    intro cs2 h
    unfold iselCoords at h
    rcases bind_eq_ok h with ⟨seg, hseg, h2⟩
    rcases bind_eq_ok h2 with ⟨tail, htail, h3⟩
    rw [Except.ok.injEq] at h3
    subst h3
    rcases ih htail with ⟨ih1, ih2, ih3⟩
    refine ⟨?_, ?_, ?_⟩
    · intro p2 hp2
      rcases List.mem_cons.1 hp2 with hpe | hpm
      · subst hpe
        exact ⟨seg, hseg, fun q hq => List.mem_append_left _ hq⟩
      · rcases ih1 p2 hpm with ⟨seg2, hseg2, hsub⟩
        exact ⟨seg2, hseg2, fun q hq => List.mem_append_right _ (hsub q hq)⟩
    · intro q hq
      rcases List.mem_append.1 hq with hql | hqr
      · exact ⟨p, List.mem_cons_self _ _, seg, hseg, hql⟩
      · rcases ih2 q hqr with ⟨p2, hp2, seg2, hseg2, hq2⟩
        exact ⟨p2, List.mem_cons_of_mem _ hp2, seg2, hseg2, hq2⟩
    · rw [List.map_append, List.map_cons]
      rcases segFor_ok_cases hseg with ⟨_, hs⟩ | ⟨_, c2, _, ⟨_, hs⟩ | ⟨_, hs⟩⟩ <;>
        subst hs
      · exact List.Sublist.cons₂ _ ih3
      · exact List.Sublist.cons _ ih3
      · exact List.Sublist.cons₂ _ ih3

/-- C3: for every successful `DataArray.isel` (over coordinates with distinct
names): a coordinate none of whose dims are named by the request is kept
unchanged; a coordinate with applicable terms is re-sliced by exactly those
terms via its own `isel` — omitted from the result when `drop` is set and it
collapsed to 0 dimensions, kept (possibly 0-dimensional) otherwise; and every
coordinate of the result has, along each of its dims, the same length as the
new owner (the re-validation the rebuilt constructor performs). -/
theorem C3_coordinate_reslicing :
    ∀ (da : DataArray) (idx : Dict) (drop : Bool) (pol : String) (da2 : DataArray),
    (da.coords.map Prod.fst).Nodup →
    da.isel idx drop pol = .ok da2 →
    (∀ p ∈ da.coords,
      (idx.filter (fun q => p.2.dims.contains q.1)).isEmpty = true →
      p ∈ da2.coords) ∧
    (∀ p ∈ da.coords,
      (idx.filter (fun q => p.2.dims.contains q.1)).isEmpty = false →
      ∃ c2, p.2.isel (idx.filter (fun q => p.2.dims.contains q.1)) "raise" = .ok c2 ∧
        ((drop && c2.ndim == 0) = true → p.1 ∉ da2.coords.map Prod.fst) ∧
        ((drop && c2.ndim == 0) = false → (p.1, c2) ∈ da2.coords)) ∧
    (∀ p ∈ da2.coords, ∀ q ∈ p.2.sizes,
      dictGet (pyDict (da2.dims.zip da2.var.shape)) q.1 = some q.2) := by
  intro da idx drop pol da2 hnd h
  rcases DataArray_isel_ok h with ⟨_, v, cs, hv, hcs, hfin⟩
  rcases iselCoords_spec hcs with ⟨hspec1, hspec2, hsub⟩
  have hcsnd : (cs.map Prod.fst).Nodup := List.Nodup.sublist hsub hnd
  rcases mk_map_vars_ok hcsnd hfin with ⟨hco, _, _⟩
  have hc3 : ∀ p ∈ da2.coords, ∀ q ∈ p.2.sizes,
      dictGet (pyDict (da2.dims.zip da2.var.shape)) q.1 = some q.2 := by
    rcases DataArray_mk_ok hfin with ⟨c, ds, hinf, _, hda⟩
    rcases infer_ok_inv hinf with ⟨_, _, hchk⟩
    have hck := check_coords_ok hchk
    rw [hda]
    intro p hp q hq
    exact (hck p hp).2 q hq
  refine ⟨?_, ?_, hc3⟩
  · intro p hp hempty
    rcases hspec1 p hp with ⟨seg, hseg, hsubm⟩
    have hsp : seg = [p] := by
      rcases segFor_ok_cases hseg with ⟨_, hs⟩ | ⟨hne, _⟩
      · exact hs
      · rw [hempty] at hne
        cases hne
    rw [hco]
    exact hsubm p (by rw [hsp]; exact List.mem_singleton.2 rfl)
  · intro p hp hnempty
    rcases hspec1 p hp with ⟨seg, hseg, hsubm⟩
    rcases segFor_ok_cases hseg with ⟨he, _⟩ | ⟨_, c2, hc2, hbr⟩
    · rw [hnempty] at he
      cases he
    · refine ⟨c2, hc2, ?_, ?_⟩
      · intro hcol
        have hsege : seg = [] := by
          rcases hbr with ⟨_, hs⟩ | ⟨hf, _⟩
          · exact hs
          · rw [hcol] at hf
            cases hf
        rw [hco]
        intro hmem
        rcases List.mem_map.1 hmem with ⟨q, hqcs, hqk⟩
        rcases hspec2 q hqcs with ⟨p2, hp2, seg2, hseg2, hq2⟩
        have hq2k : q.1 = p2.1 := segFor_ok_key hseg2 q hq2
        have hpp : p2 = p := by
          apply List.inj_on_of_nodup_map hnd hp2 hp
          rw [← hq2k, hqk]
        subst hpp
        have hseq : seg = seg2 := by
          have := hseg.symm.trans hseg2
          rw [Except.ok.injEq] at this
          exact this
        rw [hsege] at hseq
        rw [← hseq] at hq2
        cases hq2
      · intro hkeep
        have hsege : seg = [(p.1, c2)] := by
          rcases hbr with ⟨hf, _⟩ | ⟨_, hs⟩
          · rw [hkeep] at hf
            cases hf
          · exact hs
        rw [hco]
        exact hsubm _ (by rw [hsege]; exact List.mem_singleton.2 rfl)

/-- C3 witness: the concrete (4,3) array with coordinates `x` and `y`,
sliced with `{x: 0}` and `drop=True`: the unaffected coordinate `y` is kept
unchanged in the result, discharging the theorem's hypotheses concretely. -/
theorem C3_witness :
    ("y", (⟨["y"], [3]⟩ : Variable)) ∈
      (⟨⟨["y"], [3]⟩, [("y", ⟨["y"], [3]⟩)], ["y"], none⟩ : DataArray).coords :=
  (C3_coordinate_reslicing
    ⟨⟨["x", "y"], [4, 3]⟩, [("x", ⟨["x"], [4]⟩), ("y", ⟨["y"], [3]⟩)],
      ["x", "y"], none⟩
    [("x", Idx.int 0)] true "raise"
    ⟨⟨["y"], [3]⟩, [("y", ⟨["y"], [3]⟩)], ["y"], none⟩
    (by decide) (by decide)).1
    ("y", ⟨["y"], [3]⟩) (by decide) (by decide)

theorem filter_single_int {pre post : List String} {d : String} {k : Int}
    (hd1 : d ∉ pre) (hd2 : d ∉ post) :
    (pre ++ d :: post).filter (fun d2 =>
      match dictGet [(d, Idx.int k)] d2 with
      | some (.int _) => false
      | _ => true) = pre ++ post := by
  have hfun : ∀ x ∈ pre ++ d :: post,
      (match dictGet [(d, Idx.int k)] x with
        | some (Idx.int _) => false
        | _ => true) = !(decide (d = x)) := by
    intro x _
    by_cases hx : d = x
    · rw [dictGet_singleton, if_pos hx]
      simp [hx]
    · rw [dictGet_singleton, if_neg hx]
      simp [hx]
  rw [List.filter_congr hfun, List.filter_append, List.filter_cons]
  have hmid : (!(decide (d = d))) = false := by simp
  rw [hmid]
  have hside : ∀ (l : List String), d ∉ l →
      l.filter (fun d2 => !(decide (d = d2))) = l := by
    intro l hl
    apply List.filter_eq_self.2
    intro x hx
    simp [show ¬(d = x) from fun he => hl (he ▸ hx)]
  rw [hside pre hd1, hside post hd2]
  simp

theorem get?_append_length {α : Type} :
    ∀ (l1 l2 : List α), (l1 ++ l2).get? l1.length = l2.get? 0
  | [], _ => rfl
  | _ :: xs, l2 => get?_append_length xs l2

theorem drop_dims_heap_frame (heap : Heap) (r : Nat) (dims : List String)
    (missing : String) (hr : r < heap.length) :
    (drop_dims_heap heap r dims missing).1.get? r = heap.get? r := by
  unfold drop_dims_heap
  by_cases h1 : missing = "raise"
  · rw [if_pos h1]
    by_cases h2 : (invalidKeys (heap.getD r []) dims).isEmpty = true
    · rw [if_pos h2]
    · rw [if_neg h2]
  · rw [if_neg h1]
    by_cases h2 : missing = "warn"
    · rw [if_pos h2]
      show (((heap ++ [heap.getD r []]).set heap.length
        ((heap.getD r []).filter (fun p => dims.contains p.1))).get? r) = heap.get? r
      rw [List.get?_set_ne _ _ (by omega)]
      rw [List.get?_append hr]
    · rw [if_neg h2]
      by_cases h3 : missing = "ignore"
      · rw [if_pos h3]
        show ((heap ++ [(heap.getD r []).filter (fun p => dims.contains p.1)]).get? r)
          = heap.get? r
        rw [List.get?_append hr]
      · rw [if_neg h3]

theorem iselH_fst (heap : Heap) (r : Nat) (v : Variable) (missing : String) :
    (Variable.iselH heap r v missing).1 = (drop_dims_heap heap r v.dims missing).1 := by
  unfold Variable.iselH
  cases hdd : drop_dims_heap heap r v.dims missing with
  | mk h2 res => cases res <;> rfl

theorem daIselH_fst (heap : Heap) (r : Nat) (da : DataArray) (drop : Bool)
    (missing : String) :
    (DataArray.iselH heap r da drop missing).1 = heap ∨
    (DataArray.iselH heap r da drop missing).1
      = (drop_dims_heap heap r da.var.dims missing).1 := by
  unfold DataArray.iselH
  by_cases hf : ((heap.getD r []).any fun p => is_fancy_indexer p.2) = true
  · rw [if_pos hf]
    exact Or.inl rfl
  · rw [if_neg hf]
    right
    rw [← iselH_fst heap r da.var missing]
    cases hvi : Variable.iselH heap r da.var missing with
    | mk h2 res =>
      cases res <;> rfl

/-- C10: filtering an indexer mapping never mutates the caller-supplied dict:
in the explicit-heap model, after `drop_dims_from_indexers` (and hence after
`Variable.isel` or `DataArray.isel`) returns or raises under any policy, the
heap cell holding the caller's mapping is unchanged; and under `warn` the
keys are popped only from a fresh copy (the returned dict is a new cell, not
the caller's). -/
theorem C10_no_caller_mutation :
    ∀ (heap : Heap) (r : Nat) (dims : List String) (missing : String),
    r < heap.length →
    ((drop_dims_heap heap r dims missing).1.get? r = heap.get? r) ∧
    (∀ (v : Variable),
      (Variable.iselH heap r v missing).1.get? r = heap.get? r) ∧
    (∀ (da : DataArray) (drop : Bool),
      (DataArray.iselH heap r da drop missing).1.get? r = heap.get? r) ∧
    (missing = "warn" → ∀ h2 r2 w,
      drop_dims_heap heap r dims missing = (h2, .ok (r2, w)) → r2 ≠ r) := by
  intro heap r dims missing hr
  refine ⟨drop_dims_heap_frame heap r dims missing hr, ?_, ?_, ?_⟩
  · intro v
    rw [iselH_fst heap r v missing]
    exact drop_dims_heap_frame heap r v.dims missing hr
  · intro da drop
    rcases daIselH_fst heap r da drop missing with he | he
    · rw [he]
    · rw [he]
      exact drop_dims_heap_frame heap r da.var.dims missing hr
  · intro hw h2 r2 w heq
    subst hw
    have heq2 : ((heap ++ [heap.getD r []]).set heap.length
        ((heap.getD r []).filter (fun p => dims.contains p.1)),
        (Except.ok (heap.length, !(invalidKeys (heap.getD r []) dims).isEmpty) :
          Except Err (Nat × Bool))) = (h2, .ok (r2, w)) := by
      rw [← heq]
      unfold drop_dims_heap
      rw [if_neg (by decide), if_pos rfl]
    have hr2 : heap.length = r2 := by
      have hsnd := congrArg Prod.snd heq2
      simp only [Except.ok.injEq] at hsnd
      exact congrArg Prod.fst hsnd
    omega

/-- C10 witness: a concrete two-cell heap whose cell 0 holds a mapping with
an unknown key: under each policy the caller's cell is unchanged, and the
`warn` result is a fresh cell. -/
theorem C10_witness :
    ((drop_dims_heap [[("z", Idx.int 0)], []] 0 ["x"] "warn").1.get? 0
      = ([[("z", Idx.int 0)], []] : Heap).get? 0) ∧
    ((drop_dims_heap [[("z", Idx.int 0)], []] 0 ["x"] "ignore").1.get? 0
      = ([[("z", Idx.int 0)], []] : Heap).get? 0) ∧
    (∀ (v : Variable),
      (Variable.iselH [[("z", Idx.int 0)], []] 0 v "raise").1.get? 0
        = ([[("z", Idx.int 0)], []] : Heap).get? 0) ∧
    (2 : Nat) ≠ 0 :=
  ⟨(C10_no_caller_mutation [[("z", Idx.int 0)], []] 0 ["x"] "warn" (by decide)).1,
   (C10_no_caller_mutation [[("z", Idx.int 0)], []] 0 ["x"] "ignore" (by decide)).1,
   fun v => (C10_no_caller_mutation [[("z", Idx.int 0)], []] 0 ["x"] "raise"
     (by decide)).2.1 v,
   (C10_no_caller_mutation [[("z", Idx.int 0)], []] 0 ["x"] "warn" (by decide)).2.2.2
     rfl [[("z", Idx.int 0)], [], []] 2 true (by decide)⟩

theorem dictGet_append {β : Type} (l1 l2 : List (String × β)) (q : String) :
    dictGet (l1 ++ l2) q
      = match dictGet l1 q with
        | some v => some v
        | none => dictGet l2 q := by
  induction l1 with
  | nil => rfl
  | cons p rest ih =>
    by_cases hp : p.1 = q
    · show (if p.1 = q then some p.2 else dictGet (rest ++ l2) q) = _
      rw [if_pos hp]
      rw [show dictGet (p :: rest) q = some p.2 from by
        show (if p.1 = q then some p.2 else dictGet rest q) = some p.2
        rw [if_pos hp]]
    · show (if p.1 = q then some p.2 else dictGet (rest ++ l2) q) = _
      rw [if_neg hp, ih]
      rw [show dictGet (p :: rest) q = dictGet rest q from by
        show (if p.1 = q then some p.2 else dictGet rest q) = dictGet rest q
        rw [if_neg hp]]

theorem dictGet_of_mem_nodup {β : Type} {l : List (String × β)} {q : String × β}
    (hnd : (l.map Prod.fst).Nodup) (hq : q ∈ l) : dictGet l q.1 = some q.2 := by
  induction l with
  | nil => cases hq
  | cons p rest ih =>
    rw [List.map_cons, List.nodup_cons] at hnd
    rcases List.mem_cons.1 hq with he | hm
    · subst he
      show (if q.1 = q.1 then some q.2 else dictGet rest q.1) = some q.2
      rw [if_pos rfl]
    · show (if p.1 = q.1 then some p.2 else dictGet rest q.1) = some q.2
      have hneq : ¬ (p.1 = q.1) := by
        intro he
        apply hnd.1
        rw [he]
        exact List.mem_map_of_mem Prod.fst hm
      rw [if_neg hneq]
      exact ih hnd.2 hm

theorem dictGet_zip_mid {pre post : List String} {spre spost : List Nat}
    {d : String} {n : Nat} (h1 : pre.length = spre.length) (hd1 : d ∉ pre) :
    dictGet ((pre ++ d :: post).zip (spre ++ n :: spost)) d = some n := by
  rw [List.zip_append (by simpa using h1), List.zip_cons_cons, dictGet_append]
  have hpre : dictGet (pre.zip spre) d = none := by
    apply dictGet_none_of_no_key
    intro p hp he
    rcases p with ⟨a, b⟩
    have ha : a ∈ pre := (List.mem_zip hp).1
    have had : a = d := he
    exact hd1 (had ▸ ha)
  rw [hpre]
  show (if d = d then some n else dictGet (post.zip spost) d) = some n
  rw [if_pos rfl]

theorem dictGet_zip_other {pre post : List String} {spre spost : List Nat}
    {d d2 : String} {n : Nat} (h1 : pre.length = spre.length) (hne : d ≠ d2) :
    dictGet ((pre ++ post).zip (spre ++ spost)) d2
      = dictGet ((pre ++ d :: post).zip (spre ++ n :: spost)) d2 := by
  rw [List.zip_append (by simpa using h1), List.zip_append (by simpa using h1),
    List.zip_cons_cons, dictGet_append, dictGet_append]
  cases hg : dictGet (pre.zip spre) d2 with
  | some m => rfl
  | none =>
    show dictGet (post.zip spost) d2
      = (if d = d2 then some n else dictGet (post.zip spost) d2)
    rw [if_neg hne]

theorem sizes_eq_zip {v : Variable} (hnd : v.dims.Nodup)
    (hlen : v.dims.length = v.shape.length) :
    v.sizes = v.dims.zip v.shape := by
  unfold Variable.sizes
  apply pyDict_nodup
  rw [List.map_fst_zip _ _ (Nat.le_of_eq hlen)]
  exact hnd

theorem exceptIter_ok_of_all {α : Type} {f : α → Except Err Unit} :
    ∀ {l : List α}, (∀ x ∈ l, f x = .ok ()) → exceptIter f l = .ok () := by
  intro l
  induction l with
  | nil => intro _; rfl
  | cons x xs ih =>
    intro h
    unfold exceptIter
    rw [h x (List.mem_cons_self _ _)]
    simp only [ok_bind]
    exact ih (fun y hy => h y (List.mem_cons_of_mem _ hy))

theorem checkOneCoord_ok_of {sizes : List (String × Nat)} {dims : List String}
    {k : String} {v : Variable}
    (hsub : ∀ d2 ∈ v.dims, d2 ∈ dims)
    (hsz : ∀ q ∈ v.sizes, dictGet sizes q.1 = some q.2) :
    checkOneCoord sizes dims k v = .ok () := by
  unfold checkOneCoord
  rw [if_neg]
  · apply exceptIter_ok_of_all
    intro q hq
    rw [hsz q hq]
    have : (if q.2 ≠ q.2 then (throw (.conflictingSizes q.1 q.2 q.2 k) :
        Except Err Unit) else pure ()) = .ok () := by
      rw [if_neg (fun hc => hc rfl)]
      rfl
    exact this
  · intro hc
    rcases List.any_eq_true.1 hc with ⟨d2, hd2, hb⟩
    rw [contains_eq_true_of_mem (hsub d2 hd2)] at hb
    cases hb

theorem check_coords_of {shape : List Nat} {cs2 : List (String × Variable)}
    {nd : List String}
    (h : ∀ p ∈ cs2, (∀ d2 ∈ p.2.dims, d2 ∈ nd) ∧
      ∀ q ∈ p.2.sizes, dictGet (pyDict (nd.zip shape)) q.1 = some q.2) :
    _check_coords_dims shape cs2 nd = .ok () := by
  apply exceptIter_ok_of_all
  intro p hp
  exact checkOneCoord_ok_of (h p hp).1 (h p hp).2

theorem iselCoords_ok_of_all {idx : Dict} {drop : Bool} :
    ∀ {cs : List (String × Variable)},
    (∀ p ∈ cs, ∃ seg, segFor idx drop p = .ok seg) →
    ∃ cs2, iselCoords idx drop cs = .ok cs2 := by
  intro cs
  induction cs with
  | nil => exact fun _ => ⟨[], rfl⟩
  | cons p rest ih =>
    intro h
    rcases h p (List.mem_cons_self _ _) with ⟨seg, hseg⟩
    rcases ih (fun q hq => h q (List.mem_cons_of_mem _ hq)) with ⟨tail, htail⟩
    refine ⟨seg ++ tail, ?_⟩
    unfold iselCoords
    rw [hseg]
    simp only [ok_bind]
    rw [htail]
    rfl

theorem mk_map_vars_ok_of {shape : List Nat} {cs : List (String × Variable)}
    {nd : List String} {name : Option String}
    (hk : (cs.map Prod.fst).Nodup)
    (hlen : nd.length = shape.length)
    (hchk : _check_coords_dims shape cs nd = .ok ()) :
    DataArray.mk? shape (some (.map (cs.map (fun p => (p.1, CoordVal.var p.2)))))
      (some nd) name = .ok ⟨⟨nd, shape⟩, cs, nd, name⟩ := by
  unfold DataArray.mk? _infer_coords_and_dims
  rw [show checkSeqLen shape
      (some (.map (cs.map (fun p => (p.1, CoordVal.var p.2))))) = .ok () from rfl]
  simp only [ok_bind]
  rw [show resolveDims shape
      (some (.map (cs.map (fun p => (p.1, CoordVal.var p.2))))) (some nd)
      = .ok nd from by
    show (if nd.length ≠ shape.length then (Except.error
        (.dataDimsMismatch shape.length nd.length) : Except Err (List String))
      else .ok nd) = .ok nd
    rw [if_neg (fun hc => hc hlen)]]
  simp only [ok_bind]
  rw [show buildCoords nd
      (some (.map (cs.map (fun p => (p.1, CoordVal.var p.2))))) = .ok cs from
    buildMapCoords_vars hk]
  simp only [ok_bind]
  rw [hchk]
  have hmkv : Variable.mk? nd shape = .ok ⟨nd, shape⟩ := by
    unfold Variable.mk?
    rw [if_pos hlen]
  simp only [pure_eq_ok, ok_bind, hmkv]

theorem filter_singleton_mem {cdims : List String} {d : String} (t : Idx)
    (hd : d ∈ cdims) :
    ([(d, t)] : Dict).filter (fun q => cdims.contains q.1) = [(d, t)] := by
  have hc : cdims.contains ((d, t) : String × Idx).1 = true :=
    contains_eq_true_of_mem hd
  rw [List.filter_cons, hc]
  simp

theorem filter_singleton_not_mem {cdims : List String} {d : String} (t : Idx)
    (hd : d ∉ cdims) :
    ([(d, t)] : Dict).filter (fun q => cdims.contains q.1) = [] := by
  have hc : cdims.contains ((d, t) : String × Idx).1 = false :=
    contains_eq_false_of_not_mem hd
  rw [List.filter_cons, hc]
  simp

theorem shape_split {p : Variable} {cpre cpost : List String} {d : String} {n : Nat}
    (hcd : p.dims = cpre ++ d :: cpost)
    (hlen : p.dims.length = p.shape.length)
    (hdpre : d ∉ cpre)
    (hla : lenAlong p d = some n) :
    ∃ spre2 spost2, p.shape = spre2 ++ n :: spost2 ∧
      spre2.length = cpre.length ∧ cpost.length = spost2.length := by
  have hilt : cpre.length < p.shape.length := by
    rw [hcd] at hlen
    simp only [List.length_append, List.length_cons] at hlen
    omega
  have hsd : p.shape = p.shape.take cpre.length
      ++ p.shape[cpre.length] :: p.shape.drop (cpre.length + 1) := by
    rw [← List.drop_eq_getElem_cons hilt, List.take_append_drop]
  have hlt : (p.shape.take cpre.length).length = cpre.length :=
    List.length_take_of_le (Nat.le_of_lt hilt)
  have hld : cpost.length = (p.shape.drop (cpre.length + 1)).length := by
    rw [List.length_drop, hcd] at *
    simp only [List.length_append, List.length_cons] at hlen
    omega
  have hmn : p.shape[cpre.length] = n := by
    unfold lenAlong at hla
    rw [hcd, hsd, dictGet_zip_mid hlt.symm hdpre, Option.some.injEq] at hla
    exact hla
  exact ⟨p.shape.take cpre.length, p.shape.drop (cpre.length + 1),
    by rw [← hmn, ← hsd], hlt, hld⟩

theorem segFor_single_int {d : String} {k : Int} {n : Nat} (drop : Bool)
    (p : String × Variable)
    (hnd : p.2.dims.Nodup) (hlen : p.2.dims.length = p.2.shape.length)
    (hla : d ∈ p.2.dims → lenAlong p.2 d = some n)
    (hk : intOk k n = true) :
    ∃ seg, segFor [(d, Idx.int k)] drop p = .ok seg ∧
      ∀ q ∈ seg, q.1 = p.1 ∧ q.2.dims.Nodup ∧ q.2.dims.length = q.2.shape.length ∧
        ∀ d2 ∈ q.2.dims, d2 ∈ p.2.dims ∧ d2 ≠ d ∧
          lenAlong q.2 d2 = lenAlong p.2 d2 := by
  by_cases hdm : d ∈ p.2.dims
  · rcases List.append_of_mem hdm with ⟨cpre, cpost, hcd⟩
    have hnd2 : (cpre ++ d :: cpost).Nodup := hcd ▸ hnd
    rcases List.nodup_append.1 hnd2 with ⟨hnpre, hndc, hdisj⟩
    have hdpre : d ∉ cpre := fun hc => hdisj hc (List.mem_cons_self _ _)
    have hdpost : d ∉ cpost := (List.nodup_cons.1 hndc).1
    rcases shape_split hcd hlen hdpre (hla hdm) with ⟨spre2, spost2, hsd, hlt, hld⟩
    have hp2 : p.2 = ⟨cpre ++ d :: cpost, spre2 ++ n :: spost2⟩ := by
      rw [← hcd, ← hsd]
    have hisel : p.2.isel [(d, Idx.int k)] "raise"
        = .ok ⟨cpre ++ cpost, spre2 ++ spost2⟩ := by
      rw [hp2]
      exact isel_single_int hlt.symm hld hdpre hdpost hk
    have hci : ([(d, Idx.int k)] : Dict).filter
        (fun q => p.2.dims.contains q.1) = [(d, Idx.int k)] :=
      filter_singleton_mem _ hdm
    have hprops : ∀ q ∈ ([(p.1, (⟨cpre ++ cpost, spre2 ++ spost2⟩ : Variable))] :
        List (String × Variable)),
        q.1 = p.1 ∧ q.2.dims.Nodup ∧ q.2.dims.length = q.2.shape.length ∧
        ∀ d2 ∈ q.2.dims, d2 ∈ p.2.dims ∧ d2 ≠ d ∧
          lenAlong q.2 d2 = lenAlong p.2 d2 := by
      intro q hqm
      rw [List.mem_singleton] at hqm
      subst hqm
      refine ⟨rfl, ?_, ?_, ?_⟩
      · exact List.Nodup.sublist
          (List.Sublist.append (List.Sublist.refl cpre)
            (List.Sublist.cons _ (List.Sublist.refl cpost))) hnd2
      · simp only [Variable_dims_mk, Variable_shape_mk, List.length_append]
        omega
      · intro d2 hd2
        have hd2m : d2 ∈ cpre ∨ d2 ∈ cpost := by
          simpa using List.mem_append.1 hd2
        have hd2ne : d2 ≠ d := by
          intro he
          subst he
          rcases hd2m with hc | hc
          · exact hdpre hc
          · exact hdpost hc
        refine ⟨?_, hd2ne, ?_⟩
        · rw [hcd]
          rcases hd2m with hc | hc
          · exact List.mem_append_left _ hc
          · exact List.mem_append_right _ (List.mem_cons_of_mem _ hc)
        · show dictGet ((cpre ++ cpost).zip (spre2 ++ spost2)) d2
            = dictGet (p.2.dims.zip p.2.shape) d2
          rw [hcd, hsd]
          exact dictGet_zip_other (n := n) hlt.symm (fun he => hd2ne he.symm)
    unfold segFor
    rw [hci]
    rw [if_neg (show ¬ (([(d, Idx.int k)] : Dict).isEmpty = true) from by simp)]
    rw [hisel]
    simp only [ok_bind]
    by_cases hdr : (drop && ((⟨cpre ++ cpost, spre2 ++ spost2⟩ :
        Variable).ndim == 0)) = true
    · rw [if_pos hdr]
      exact ⟨[], rfl, fun q hq => absurd hq (List.not_mem_nil _)⟩
    · rw [if_neg hdr]
      exact ⟨_, rfl, hprops⟩
  · have hci : ([(d, Idx.int k)] : Dict).filter
        (fun q => p.2.dims.contains q.1) = [] :=
      filter_singleton_not_mem _ hdm
    unfold segFor
    rw [hci]
    rw [if_pos (show (([] : Dict).isEmpty = true) from rfl)]
    refine ⟨[p], rfl, ?_⟩
    intro q hqm
    rw [List.mem_singleton] at hqm
    subst hqm
    exact ⟨rfl, hnd, hlen, fun d2 hd2 =>
      ⟨hd2, fun he => hdm (he ▸ hd2), rfl⟩⟩

theorem DataArray_isel_single_int_ok
    {pre post : List String} {spre spost : List Nat} {d : String} {n : Nat} {k : Int}
    (h1 : pre.length = spre.length) (h2 : post.length = spost.length)
    (hd1 : d ∉ pre) (hd2 : d ∉ post) (hk : intOk k n = true)
    (da : DataArray) (drop : Bool)
    (hdims : da.dims = pre ++ d :: post)
    (hvar : da.var = ⟨pre ++ d :: post, spre ++ n :: spost⟩)
    (hdnodup : da.dims.Nodup)
    (hknodup : (da.coords.map Prod.fst).Nodup)
    (hcoords : ∀ p ∈ da.coords,
      p.2.dims.Nodup ∧ p.2.dims.length = p.2.shape.length ∧
      (∀ d2 ∈ p.2.dims, d2 ∈ da.dims) ∧
      (∀ d2 ∈ p.2.dims, lenAlong p.2 d2 = lenAlong da.var d2)) :
    ∃ da2, da.isel [(d, Idx.int k)] drop "raise" = .ok da2 ∧
      da2.dims = pre ++ post ∧ da2.var = ⟨pre ++ post, spre ++ spost⟩ := by
  have hsegs : ∀ p ∈ da.coords,
      ∃ seg, segFor [(d, Idx.int k)] drop p = .ok seg ∧
      ∀ q ∈ seg, q.1 = p.1 ∧ q.2.dims.Nodup ∧ q.2.dims.length = q.2.shape.length ∧
        ∀ d2 ∈ q.2.dims, d2 ∈ p.2.dims ∧ d2 ≠ d ∧
          lenAlong q.2 d2 = lenAlong p.2 d2 := by
    intro p hp
    rcases hcoords p hp with ⟨hn, hl, _, hlena⟩
    refine segFor_single_int drop p hn hl ?_ hk
    intro hdm
    rw [hlena d hdm, hvar]
    show dictGet ((pre ++ d :: post).zip (spre ++ n :: spost)) d = some n
    exact dictGet_zip_mid h1 hd1
  rcases iselCoords_ok_of_all
      (fun p hp => ⟨(hsegs p hp).choose, (hsegs p hp).choose_spec.1⟩)
    with ⟨cs2, hcs2⟩
  rcases iselCoords_spec hcs2 with ⟨_, hspec2, hsub⟩
  have hq : ∀ q ∈ cs2,
      q.2.dims.Nodup ∧ q.2.dims.length = q.2.shape.length ∧
      (∀ d2 ∈ q.2.dims, d2 ∈ pre ++ post) ∧
      (∀ d2 ∈ q.2.dims,
        lenAlong q.2 d2 = lenAlong ⟨pre ++ post, spre ++ spost⟩ d2) := by
    intro q hqm
    rcases hspec2 q hqm with ⟨p, hp, seg, hseg, hqseg⟩
    rcases hsegs p hp with ⟨seg0, hseg0, hprops⟩
    have hsegeq : seg = seg0 := by
      have := hseg0.symm.trans hseg
      rw [Except.ok.injEq] at this
      exact this.symm
    rw [hsegeq] at hqseg
    rcases hprops q hqseg with ⟨_, hqn, hql, hqd⟩
    rcases hcoords p hp with ⟨_, _, hmem, hlena⟩
    refine ⟨hqn, hql, ?_, ?_⟩
    · intro d2 hd2
      rcases hqd d2 hd2 with ⟨hd2p, hd2ne, _⟩
      have hda : d2 ∈ da.dims := hmem d2 hd2p
      rw [hdims] at hda
      rcases List.mem_append.1 hda with hh | hh
      · exact List.mem_append_left _ hh
      · rcases List.mem_cons.1 hh with he | hh2
        · exact absurd he hd2ne
        · exact List.mem_append_right _ hh2
    · intro d2 hd2
      rcases hqd d2 hd2 with ⟨hd2p, hd2ne, hqlen⟩
      rw [hqlen, hlena d2 hd2p, hvar]
      show dictGet ((pre ++ d :: post).zip (spre ++ n :: spost)) d2
        = dictGet ((pre ++ post).zip (spre ++ spost)) d2
      exact (dictGet_zip_other (n := n) h1 (fun he => hd2ne he.symm)).symm
  have hcs2keys : (cs2.map Prod.fst).Nodup := List.Nodup.sublist hsub hknodup
  have hnodup2 : (pre ++ post).Nodup := by
    rw [hdims] at hdnodup
    exact List.Nodup.sublist
      (List.Sublist.append (List.Sublist.refl pre)
        (List.Sublist.cons _ (List.Sublist.refl post))) hdnodup
  have hlen2 : (pre ++ post).length = (spre ++ spost).length := by
    simp only [List.length_append]
    omega
  have hchk : _check_coords_dims (spre ++ spost) cs2 (pre ++ post) = .ok () := by
    apply check_coords_of
    intro p2 hp2
    rcases hq p2 hp2 with ⟨hqn, hql, hqmem, hqlen⟩
    refine ⟨hqmem, ?_⟩
    intro q0 hq0
    rw [sizes_eq_zip hqn hql] at hq0
    have hzq : dictGet (p2.2.dims.zip p2.2.shape) q0.1 = some q0.2 :=
      dictGet_of_mem_nodup
        (by rw [List.map_fst_zip _ _ (Nat.le_of_eq hql)]; exact hqn) hq0
    have hq01 : q0.1 ∈ p2.2.dims := by
      rcases hq2 : q0 with ⟨a, b⟩
      rw [hq2] at hq0
      exact (List.mem_zip hq0).1
    have hlq := hqlen q0.1 hq01
    have hlq2 : lenAlong p2.2 q0.1 = some q0.2 := hzq
    rw [hlq2] at hlq
    rw [pyDict_nodup (by
      rw [List.map_fst_zip _ _ (Nat.le_of_eq hlen2)]
      exact hnodup2)]
    exact hlq.symm
  have hvisel : da.var.isel [(d, Idx.int k)] "raise"
      = .ok ⟨pre ++ post, spre ++ spost⟩ := by
    rw [hvar]
    exact isel_single_int h1 h2 hd1 hd2 hk
  refine ⟨⟨⟨pre ++ post, spre ++ spost⟩, cs2, pre ++ post, da.name⟩, ?_, rfl, rfl⟩
  unfold DataArray.isel
  rw [if_neg (show ¬ ((([(d, Idx.int k)] : Dict).any
      fun p => is_fancy_indexer p.2) = true) from by
    simp [is_fancy_indexer])]
  rw [hvisel]
  simp only [ok_bind]
  rw [hcs2]
  simp only [ok_bind]
  rw [hdims, filter_single_int hd1 hd2]
  exact mk_map_vars_ok_of hcs2keys hlen2 hchk

/-- C1: integer indexing collapses exactly the named axis: for a `Variable`
with dimension `d` (occurring once), `isel {d: k}` with an in-bounds integer
removes exactly `d` from dims and drops exactly that axis from the shape,
leaving all other dims and lengths untouched (they default to a full slice);
a slice term for `d` keeps every dim, `d` included; every successful
`DataArray.isel {d: k}` likewise returns an object whose dims drop exactly
`d` and whose shape drops exactly that axis; and on a well-formed
`DataArray` (consistent dims/coords) the operation does succeed with that
result. -/
theorem C1_integer_collapse :
    ∀ (pre post : List String) (spre spost : List Nat) (d : String) (n : Nat),
    pre.length = spre.length → post.length = spost.length →
    d ∉ pre → d ∉ post →
    (∀ (k : Int), intOk k n = true →
      Variable.isel ⟨pre ++ d :: post, spre ++ n :: spost⟩ [(d, Idx.int k)] "raise"
        = .ok ⟨pre ++ post, spre ++ spost⟩) ∧
    (∀ (a b c : Option Int), c ≠ some 0 →
      Variable.isel ⟨pre ++ d :: post, spre ++ n :: spost⟩ [(d, Idx.slc a b c)] "raise"
        = .ok ⟨pre ++ d :: post, spre ++ sliceLenVal n a b c :: spost⟩) ∧
    (∀ (k : Int) (da : DataArray) (drop : Bool) (da2 : DataArray),
      intOk k n = true →
      da.dims = pre ++ d :: post →
      da.var = ⟨pre ++ d :: post, spre ++ n :: spost⟩ →
      da.isel [(d, Idx.int k)] drop "raise" = .ok da2 →
      da2.dims = pre ++ post ∧ da2.var.dims = pre ++ post ∧
      da2.var.shape = spre ++ spost) ∧
    (∀ (k : Int) (da : DataArray) (drop : Bool),
      intOk k n = true →
      da.dims = pre ++ d :: post →
      da.var = ⟨pre ++ d :: post, spre ++ n :: spost⟩ →
      da.dims.Nodup →
      (da.coords.map Prod.fst).Nodup →
      (∀ p ∈ da.coords,
        p.2.dims.Nodup ∧ p.2.dims.length = p.2.shape.length ∧
        (∀ d2 ∈ p.2.dims, d2 ∈ da.dims) ∧
        (∀ d2 ∈ p.2.dims, lenAlong p.2 d2 = lenAlong da.var d2)) →
      ∃ da2, da.isel [(d, Idx.int k)] drop "raise" = .ok da2 ∧
        da2.dims = pre ++ post ∧ da2.var = ⟨pre ++ post, spre ++ spost⟩) := by
  intro pre post spre spost d n h1 h2 hd1 hd2
  refine ⟨fun k hk => isel_single_int h1 h2 hd1 hd2 hk,
    fun a b c hc => isel_single_slc h1 h2 hd1 hd2 hc, ?_, ?_⟩
  · intro k da drop da2 hk hdims hvar h
    rcases DataArray_isel_ok h with ⟨_, v, cs, hv, _, hfin⟩
    rw [hvar, isel_single_int h1 h2 hd1 hd2 hk, Except.ok.injEq] at hv
    rcases DataArray_mk_ok hfin with ⟨c, ds, hinf, _, hda⟩
    rcases infer_ok_inv hinf with ⟨hds, _, _⟩
    have hdsv : ds = da.dims.filter (fun d2 =>
        match dictGet [(d, Idx.int k)] d2 with
        | some (.int _) => false
        | _ => true) := resolveDims_some_ok hds
    rw [hdims, filter_single_int hd1 hd2] at hdsv
    rw [hda, hdsv, ← hv]
    exact ⟨rfl, rfl, rfl⟩
  · intro k da drop hk hdims hvar hnodup hknodup hcoords
    exact DataArray_isel_single_int_ok h1 h2 hd1 hd2 hk da drop hdims hvar
      hnodup hknodup hcoords

/-- C1 witness: the concrete `Variable (("x","y"), 4×3)`: `isel {x: 0}` gives
dims `("y",)` and shape `(3,)`; `isel {x: slice(0,2)}` keeps both dims with
shape `(2,3)`; the corresponding well-formed `DataArray` succeeds and its
result drops exactly `x`. -/
theorem C1_witness :
    Variable.isel ⟨["x", "y"], [4, 3]⟩ [("x", Idx.int 0)] "raise"
      = .ok ⟨["y"], [3]⟩ ∧
    Variable.isel ⟨["x", "y"], [4, 3]⟩ [("x", Idx.slc (some 0) (some 2) none)] "raise"
      = .ok ⟨["x", "y"], [2, 3]⟩ ∧
    (⟨⟨["y"], [3]⟩, [("x", ⟨[], []⟩), ("y", ⟨["y"], [3]⟩)], ["y"], none⟩
       : DataArray).dims = ["y"] ∧
    (∃ da2, DataArray.isel
        ⟨⟨["x", "y"], [4, 3]⟩, [("x", ⟨["x"], [4]⟩), ("y", ⟨["y"], [3]⟩)],
          ["x", "y"], none⟩
        [("x", Idx.int 0)] false "raise" = .ok da2 ∧
      da2.dims = ["y"] ∧ da2.var = ⟨["y"], [3]⟩) := by
  have h := C1_integer_collapse [] ["y"] [] [3] "x" 4 (by decide) (by decide)
    (by decide) (by decide)
  refine ⟨h.1 0 (by decide), ?_, ?_, ?_⟩
  · have h2 := h.2.1 (some 0) (some 2) none (by decide)
    simpa using h2
  · exact (h.2.2.1 0
      ⟨⟨["x", "y"], [4, 3]⟩, [("x", ⟨["x"], [4]⟩), ("y", ⟨["y"], [3]⟩)],
        ["x", "y"], none⟩
      false
      ⟨⟨["y"], [3]⟩, [("x", ⟨[], []⟩), ("y", ⟨["y"], [3]⟩)], ["y"], none⟩
      (by decide) (by decide) (by decide) (by decide)).1
  · exact h.2.2.2 0
      ⟨⟨["x", "y"], [4, 3]⟩, [("x", ⟨["x"], [4]⟩), ("y", ⟨["y"], [3]⟩)],
        ["x", "y"], none⟩
      false (by decide) (by decide) (by decide) (by decide) (by decide)
      (by decide)

end Warray
